import Mathlib

/-!
# Verification of the yarn dependency-resolution core

Shallow embedding of the resolver sources (`src/src/...`) of the repository:
pattern normalization (`util/normalize-pattern.js`), the constraint reducer
(`package-constraint-resolver.js`), the lockfile model (`lockfile/index.js`),
the package reference (`package-reference.js`), the package resolver
(`package-resolver.js`) and workspace discovery (`config.js`).

JavaScript objects produced by `map()` are modelled as insertion-ordered
association lists (`JsMap`); JavaScript strings are Lean `String`s, with the
character-level operations (`split`, `slice`, `join`) carried out on `.toList`.
External npm libraries (`semver`, `ssri`) are not part of this repository:
their operations appear as explicit function parameters (bundled in `Semver`),
except where the spec pins down their behaviour and a claim is about that
behaviour, in which case a definition marked `Modelled from the spec:` is used.
-/

namespace Yarn

/-- JavaScript `String.prototype.split` with a single-character separator,
on the character list of the string.  `''.split(c) == ['']`. -/
def jsSplitChar (sep : Char) : List Char → List (List Char)
  | [] => [[]]
  | c :: rest =>
    if c = sep then
      [] :: jsSplitChar sep rest
    else
      match jsSplitChar sep rest with
      | [] => [[c]]
      | part :: parts => (c :: part) :: parts

theorem jsSplitChar_ne_nil (sep : Char) (l : List Char) : jsSplitChar sep l ≠ [] := by
  cases l with
  | nil => simp [jsSplitChar]
  | cons c rest =>
    simp only [jsSplitChar]
    split
    · simp
    · split <;> simp

/-- Splitting a list that does not contain the separator yields that list alone. -/
theorem jsSplitChar_of_not_mem (sep : Char) (l : List Char) (h : sep ∉ l) :
    jsSplitChar sep l = [l] := by
  induction l with
  | nil => rfl
  | cons c rest ih =>
    simp only [List.mem_cons, not_or] at h
    simp only [jsSplitChar]
    rw [if_neg (fun hc => h.1 hc.symm), ih h.2]

/-- Splitting `l ++ sep :: r` where `l` is separator-free peels off `l` as the
first part. -/
theorem jsSplitChar_append (sep : Char) (l r : List Char) (h : sep ∉ l) :
    jsSplitChar sep (l ++ sep :: r) = l :: jsSplitChar sep r := by
  induction l with
  | nil => simp [jsSplitChar]
  | cons c rest ih =>
    simp only [List.mem_cons, not_or] at h
    simp only [List.cons_append, jsSplitChar]
    rw [if_neg (fun hc => h.1 hc.symm)]
    have harr : rest.append (sep :: r) = rest ++ sep :: r := rfl
    rw [harr, ih h.2]

/-- `Array.prototype.join('@')` undoes a split on `'@'`. -/
theorem intercalate_jsSplitChar (sep : Char) (l : List Char) :
    List.intercalate [sep] (jsSplitChar sep l) = l := by
  induction l with
  | nil => simp [jsSplitChar, List.intercalate]
  | cons c rest ih =>
    simp only [jsSplitChar]
    split
    · rename_i hc
      subst hc
      rw [List.intercalate] at ih ⊢
      cases hs : jsSplitChar c rest with
      | nil => exact absurd hs (jsSplitChar_ne_nil c rest)
      | cons part parts =>
        rw [hs] at ih
        simp only [List.intersperse] at ih ⊢
        cases parts with
        | nil => simp_all
        | cons p ps => simp_all
    · cases hs : jsSplitChar sep rest with
      | nil => exact absurd hs (jsSplitChar_ne_nil sep rest)
      | cons part parts =>
        rw [hs] at ih
        rw [List.intercalate] at ih ⊢
        cases parts with
        | nil => simp_all
        | cons p ps =>
          simp only [List.intersperse] at ih ⊢
          simp_all

/-! ## `normalizePattern` (src/src/util/normalize-pattern.js) -/

structure NormalizedPattern where
  name : String
  range : String
  hasVersion : Bool
  deriving Repr, DecidableEq

/-- `if (isScoped) name = `@${name}`` — re-attach the scope `@` stripped
before splitting. -/
def withScopeStr (isScoped : Bool) (n : List Char) : String :=
  if isScoped then String.mk ('@' :: n) else String.mk n

/-- The part of `normalizePattern` after the scope `@` has been stripped:
`const parts = name.split('@')`; with more than one part the first is the
name (`parts.shift()`) and the rest re-joined by `@` is the range
(`parts.join('@')`); a truthy range sets `hasVersion`, an empty one is
replaced by `*` (leaving `hasVersion` as initialised, i.e. `false`). -/
def normalizePatternBody (isScoped : Bool) (rest : List Char) : NormalizedPattern :=
  match jsSplitChar '@' rest with
  | [] => ⟨withScopeStr isScoped rest, "latest", false⟩
  | [_] => ⟨withScopeStr isScoped rest, "latest", false⟩
  | nm :: parts =>
    let range := List.intercalate ['@'] parts
    if range.isEmpty then
      ⟨withScopeStr isScoped nm, "*", false⟩
    else
      ⟨withScopeStr isScoped nm, String.mk range, true⟩

/-- `normalizePattern(pattern)` from `src/src/util/normalize-pattern.js`:
`if (name[0] === '@')` remove the scope `@` (added back by
`withScopeStr`), then split on `@` (`normalizePatternBody`). -/
def normalizePattern (pattern : String) : NormalizedPattern :=
  let chars := pattern.toList
  if chars.head? = some '@' then normalizePatternBody true chars.tail
  else normalizePatternBody false chars

example : normalizePattern "concat-stream@^1.5.0" = ⟨"concat-stream", "^1.5.0", true⟩ := by decide
example : normalizePattern "foo@" = ⟨"foo", "*", false⟩ := by decide
example : normalizePattern "@scope/foo@" = ⟨"@scope/foo", "*", false⟩ := by decide
example : normalizePattern "@scope/foo@^1.0.0" = ⟨"@scope/foo", "^1.0.0", true⟩ := by decide
example : normalizePattern "foo" = ⟨"foo", "latest", false⟩ := by decide
example : normalizePattern "a@b@1.0.0" = ⟨"a", "b@1.0.0", true⟩ := by decide

/-- The characters of a pattern name after removing one leading scope `@`. -/
def descopedChars (s : String) : List Char :=
  if s.toList.head? = some '@' then s.toList.tail else s.toList

theorem toList_append_at (name rest : String) :
    (name ++ "@" ++ rest).toList = name.toList ++ '@' :: rest.toList := by
  show (name ++ "@" ++ rest).data = name.data ++ '@' :: rest.data
  rw [String.data_append, String.data_append]
  have : ("@" : String).data = ['@'] := rfl
  rw [this, List.append_assoc]
  rfl

theorem mk_toList (s : String) : String.mk s.toList = s := rfl

/-- When the part before the first `@` is separator-free, the body splits it
off as the name and re-joins everything after it as the range. -/
theorem normalizePatternBody_append (b : Bool) (n r : List Char) (h : '@' ∉ n) :
    normalizePatternBody b (n ++ '@' :: r) =
      if r.isEmpty then ⟨withScopeStr b n, "*", false⟩
      else ⟨withScopeStr b n, String.mk r, true⟩ := by
  unfold normalizePatternBody
  rw [jsSplitChar_append '@' n r h]
  cases hs : jsSplitChar '@' r with
  | nil => exact absurd hs (jsSplitChar_ne_nil _ _)
  | cons p ps =>
    simp only
    rw [← hs, intercalate_jsSplitChar]

/-- Core computation of `normalizePattern` on `name ++ "@" ++ rest` when the
descoped name contains no `@`: the split isolates exactly the name. -/
theorem normalizePattern_append_at (name rest : String) (hn : name ≠ "")
    (h : '@' ∉ descopedChars name) :
    normalizePattern (name ++ "@" ++ rest) =
      if rest.toList.isEmpty then (⟨name, "*", false⟩ : NormalizedPattern)
      else ⟨name, String.mk rest.toList, true⟩ := by
  have htl : (name ++ "@" ++ rest).toList = name.toList ++ '@' :: rest.toList :=
    toList_append_at name rest
  unfold normalizePattern
  simp only [htl]
  unfold descopedChars at h
  cases hname : name.toList with
  | nil => exact absurd (congrArg String.mk hname) (by simpa [mk_toList] using hn)
  | cons c t =>
    rw [hname] at h
    by_cases hc : c = '@'
    · subst hc
      rw [if_pos (show ('@' :: t).head? = some '@' from rfl)] at h
      simp only [List.tail_cons] at h
      have hcond : ('@' :: t ++ '@' :: rest.toList).head? = some '@' := rfl
      rw [if_pos hcond]
      have htail : ('@' :: t ++ '@' :: rest.toList).tail = t ++ '@' :: rest.toList := rfl
      rw [htail, normalizePatternBody_append true t rest.toList h]
      have hws : withScopeStr true t = name := by
        unfold withScopeStr
        rw [if_pos rfl, ← hname, mk_toList]
      rw [hws]
    · rw [if_neg (by simp [hc])] at h
      have hcond : ¬ ((c :: t ++ '@' :: rest.toList).head? = some '@') := by
        simp [hc]
      rw [if_neg hcond, normalizePatternBody_append false (c :: t) rest.toList h]
      have hws : withScopeStr false (c :: t) = name := by
        unfold withScopeStr
        rw [if_neg (by simp), ← hname, mk_toList]
      rw [hws]

/-- C4 (counterexample): on `"foo@"` — a pattern whose range part after the
name separator is empty — `normalizePattern` keeps `hasVersion = false`,
refuting the claim that the result has `hasVersion = true`. -/
theorem normalizePattern_empty_range_cex :
    ¬ (∀ p : String, (normalizePattern p).range = "*" →
        (normalizePattern p).hasVersion = true) := by
  intro h
  have := h "foo@" (by decide)
  exact absurd this (by decide)

/-- C4 (amended): for every pattern whose range part after the name separator
is empty — `name ++ "@"` with an `@`-free (descoped) name — `normalizePattern`
returns range `*` with `hasVersion = false`. -/
theorem normalizePattern_empty_range (name : String) (hn : name ≠ "")
    (h : '@' ∉ descopedChars name) :
    normalizePattern (name ++ "@") = ⟨name, "*", false⟩ := by
  have := normalizePattern_append_at name "" hn h
  simpa using this

/-- C4 witness: the amended theorem applied at `"foo"` and `"@scope/foo"`. -/
theorem normalizePattern_empty_range_witness :
    normalizePattern ("foo" ++ "@") = ⟨"foo", "*", false⟩ ∧
      normalizePattern ("@scope/foo" ++ "@") = ⟨"@scope/foo", "*", false⟩ :=
  ⟨normalizePattern_empty_range "foo" (by decide) (by decide),
   normalizePattern_empty_range "@scope/foo" (by decide) (by decide)⟩

/-- C6 (counterexample): the round-trip law fails for the non-empty name
`"a@b"` (an `@` inside the name is parsed as the separator), so
`normalizePattern` is not a left inverse of pattern construction for *every*
non-empty name. -/
theorem normalizePattern_roundtrip_cex :
    ¬ (∀ name range : String, name ≠ "" → range ≠ "" →
        normalizePattern (name ++ "@" ++ range) = ⟨name, range, true⟩) := by
  intro h
  have := h "a@b" "1.0.0" (by decide) (by decide)
  exact absurd this (by decide)

/-- C6 (amended): for every non-empty name whose descoped part contains no
`@` (this includes scoped names `@scope/pkg`) and every non-empty range,
`normalizePattern (name ++ "@" ++ range)` returns exactly that name, exactly
that range, and `hasVersion = true`. -/
theorem normalizePattern_roundtrip (name range : String) (hn : name ≠ "")
    (hr : range ≠ "") (h : '@' ∉ descopedChars name) :
    normalizePattern (name ++ "@" ++ range) = ⟨name, range, true⟩ := by
  have hres := normalizePattern_append_at name range hn h
  have hne : range.toList ≠ [] := by
    intro hc
    exact hr (congrArg String.mk hc)
  rw [hres]
  simp only [List.isEmpty_iff]
  rw [if_neg hne, mk_toList]

/-- C6 witness: the amended round-trip law applied to a scoped name. -/
theorem normalizePattern_roundtrip_witness :
    normalizePattern ("@scope/pkg" ++ "@" ++ "^1.5.0") =
      ⟨"@scope/pkg", "^1.5.0", true⟩ :=
  normalizePattern_roundtrip "@scope/pkg" "^1.5.0" (by decide) (by decide) (by decide)

/-! ## External `semver` library interface and exotic resolvers -/

/-- Interface of the external npm `semver` library consumed by the sources.
`validRange`, `valid` and `satisfies` are the strict two-argument forms;
`satisfiesCfg` takes the loose flag (`config.looseSemver`); `vle` is the
version order (`a` precedes-or-equals `b`) underlying `semver.rcompare` and
`semver.maxSatisfying`.  The library is not part of this repository, so the
resolver logic is verified for every such interface. -/
structure Semver where
  validRange : String → Bool
  valid : String → Bool
  satisfies : String → String → Bool
  satisfiesCfg : Bool → String → String → Bool
  vle : String → String → Bool

/-- Modelled from the spec: `getExoticResolver` from `src/resolvers/index.js`
is not under `src/`; per §4.E and the glossary, exotic resolvers exist for
non-registry sources (file path, link path, URL, VCS URL, local workspace)
and are "selected by inspecting the `range` prefix".  Returns whether an
exotic resolver matches the range. -/
def getExoticResolver (range : String) : Bool :=
  ["file:", "link:", "http://", "https://", "git:", "git+", "github:",
    "workspace:"].any (fun p => List.isPrefixOf p.toList range.toList)

/-! ## `PackageReference.addOptional` (src/src/package-reference.js) -/

/-- `addOptional(optional)` from `src/src/package-reference.js`, acting on the
three-state `optional` field (`null` / `true` / `false`): when uninitialised
take the argument; otherwise only a non-optional (`false`) argument changes
the state, to `false`. -/
def addOptional (current : Option Bool) (optional : Bool) : Option Bool :=
  match current with
  | none => some optional
  | some b => if optional = false then some false else some b

theorem foldl_addOptional_some (l : List Bool) (b : Bool) :
    l.foldl addOptional (some b) = some (b && l.all id) := by
  induction l generalizing b with
  | nil => simp
  | cons x xs ih =>
    have hstep : addOptional (some b) x = some (b && x) := by
      cases x <;> simp [addOptional]
    rw [List.foldl_cons, hstep, ih, List.all_cons]
    simp [Bool.and_assoc]

/-- C8: the `optional` flag is a monotonic three-state join: starting from the
uninitialised state (`null`), it stays uninitialised with no calls; after at
least one `addOptional` call it is required (`some false`) iff some call
passed `false`; and once required it stays required under any further calls. -/
theorem addOptional_monotonic (calls : List Bool) :
    (calls = [] → calls.foldl addOptional none = none) ∧
    (calls ≠ [] →
      (calls.foldl addOptional none = some false ↔ false ∈ calls)) ∧
    (∀ more : List Bool, calls.foldl addOptional none = some false →
      more.foldl addOptional (calls.foldl addOptional none) = some false) := by
  refine ⟨fun h => by subst h; rfl, ?_, ?_⟩
  · intro hne
    cases calls with
    | nil => exact absurd rfl hne
    | cons c cs =>
      rw [List.foldl_cons]
      show cs.foldl addOptional (some c) = some false ↔ false ∈ c :: cs
      rw [foldl_addOptional_some]
      constructor
      · intro h
        have : (c && cs.all id) = false := by
          simpa using h
        rcases Bool.and_eq_false_iff.mp this with hc | hcs
        · exact hc ▸ List.mem_cons_self c cs
        · have hmem : false ∈ cs := by
            by_contra hmem
            have hall : cs.all id = true := by
              rw [List.all_eq_true]
              intro x hx
              cases x
              · exact absurd hx hmem
              · rfl
            simp [hall] at hcs
          exact List.mem_cons_of_mem c hmem
      · intro h
        rcases List.mem_cons.mp h with hc | hcs
        · rw [← hc]
          simp
        · have : cs.all id = false := by
            cases hall : cs.all id
            · rfl
            · rw [List.all_eq_true] at hall
              have := hall false hcs
              simp [id] at this
          rw [this]
          simp
  · intro more h
    rw [h, foldl_addOptional_some]
    simp

/-- C8 witness: the monotonic join at the concrete call sequence
`[true, false]` followed by `[true]`, via `addOptional_monotonic`. -/
theorem addOptional_monotonic_witness :
    [true, false].foldl addOptional none = some false ∧
      [true].foldl addOptional ([true, false].foldl addOptional none) =
        some false := by
  have h := addOptional_monotonic [true, false]
  have h1 : [true, false].foldl addOptional none = some false :=
    (h.2.1 (by simp)).mpr (by simp)
  exact ⟨h1, h.2.2 [true] h1⟩

/-! ## `PackageConstraintResolver.reduce` (src/src/package-constraint-resolver.js) -/

/-- Modelled from the spec: `semver.maxSatisfying(versions, range, loose)` is
part of the external `semver` library; §4.B pins its behaviour down as
"return the maximum element satisfying `range` under loose-or-strict semver;
returns `none` only when no candidate satisfies".  The maximum is taken with
respect to the interface's version order `S.vle`. -/
def maxSatStep (S : Semver) (loose : Bool) (range : String)
    (acc : Option String) (v : String) : Option String :=
  if S.satisfiesCfg loose v range then
    match acc with
    | none => some v
    | some b => if S.vle b v then some v else some b
  else acc

def maxSatisfying (S : Semver) (loose : Bool) (versions : List String)
    (range : String) : Option String :=
  versions.foldl (maxSatStep S loose range) none

theorem maxSatStep_not_sat (S : Semver) (loose : Bool) (range : String)
    (acc : Option String) (x : String)
    (h : S.satisfiesCfg loose x range = false) :
    maxSatStep S loose range acc x = acc := by
  simp [maxSatStep, h]

theorem maxSatStep_sat_none (S : Semver) (loose : Bool) (range : String)
    (x : String) (h : S.satisfiesCfg loose x range = true) :
    maxSatStep S loose range none x = some x := by
  simp [maxSatStep, h]

theorem maxSatStep_sat_le (S : Semver) (loose : Bool) (range : String)
    (b x : String) (h : S.satisfiesCfg loose x range = true)
    (hle : S.vle b x = true) :
    maxSatStep S loose range (some b) x = some x := by
  simp [maxSatStep, h, hle]

theorem maxSatStep_sat_gt (S : Semver) (loose : Bool) (range : String)
    (b x : String) (h : S.satisfiesCfg loose x range = true)
    (hle : ¬ S.vle b x = true) :
    maxSatStep S loose range (some b) x = some b := by
  simp [maxSatStep, h]
  intro hc
  exact absurd hc hle

theorem maxSat_aux (S : Semver) (loose : Bool) (range : String)
    (htot : ∀ a b, S.vle a b = true ∨ S.vle b a = true)
    (htrans : ∀ a b c, S.vle a b = true → S.vle b c = true → S.vle a c = true) :
    ∀ (l : List String) (acc : Option String),
      (l.foldl (maxSatStep S loose range) acc = none ↔
        (acc = none ∧ ∀ w ∈ l, S.satisfiesCfg loose w range = false)) ∧
      (∀ v, l.foldl (maxSatStep S loose range) acc = some v →
        ((v ∈ l ∧ S.satisfiesCfg loose v range = true) ∨ acc = some v) ∧
        (∀ w ∈ l, S.satisfiesCfg loose w range = true → S.vle w v = true) ∧
        (∀ b, acc = some b → S.vle b v = true)) := by
  have hrefl : ∀ a, S.vle a a = true := fun a => (htot a a).elim id id
  intro l
  induction l with
  | nil =>
    intro acc
    refine ⟨by simp, fun v hv => ?_⟩
    simp only [List.foldl_nil] at hv
    refine ⟨Or.inr hv, by simp, fun b hb => ?_⟩
    rw [hb] at hv
    injection hv with hbv
    rw [hbv]
    exact hrefl v
  | cons x xs ih =>
    intro acc
    rw [List.foldl_cons]
    have hstepcases :
        (S.satisfiesCfg loose x range = false ∧
          maxSatStep S loose range acc x = acc) ∨
        (S.satisfiesCfg loose x range = true ∧
          ((acc = none ∧ maxSatStep S loose range acc x = some x) ∨
           (∃ b, acc = some b ∧ S.vle b x = true ∧
              maxSatStep S loose range acc x = some x) ∨
           (∃ b, acc = some b ∧ ¬ S.vle b x = true ∧ S.vle x b = true ∧
              maxSatStep S loose range acc x = some b))) := by
      cases hsat : S.satisfiesCfg loose x range with
      | false => exact Or.inl ⟨rfl, maxSatStep_not_sat S loose range acc x hsat⟩
      | true =>
        refine Or.inr ⟨rfl, ?_⟩
        cases hacq : acc with
        | none => exact Or.inl ⟨rfl, maxSatStep_sat_none S loose range x hsat⟩
        | some b =>
          by_cases hle : S.vle b x = true
          · exact Or.inr (Or.inl ⟨b, rfl,
              hle, maxSatStep_sat_le S loose range b x hsat hle⟩)
          · exact Or.inr (Or.inr ⟨b, rfl, hle,
              (htot b x).resolve_left hle,
              maxSatStep_sat_gt S loose range b x hsat hle⟩)
    constructor
    · rw [(ih (maxSatStep S loose range acc x)).1]
      constructor
      · rintro ⟨hstep, hxs⟩
        rcases hstepcases with ⟨hsat, heq⟩ | ⟨hsat, hcase⟩
        · rw [heq] at hstep
          refine ⟨hstep, fun w hw => ?_⟩
          rcases List.mem_cons.mp hw with hwx | hwxs
          · exact hwx ▸ hsat
          · exact hxs w hwxs
        · exfalso
          rcases hcase with ⟨_, heq⟩ | ⟨b, _, _, heq⟩ | ⟨b, _, _, _, heq⟩ <;>
            rw [heq] at hstep <;> cases hstep
      · rintro ⟨hacc, hall⟩
        have hsat : S.satisfiesCfg loose x range = false :=
          hall x (List.mem_cons_self x xs)
        refine ⟨?_, fun w hw => hall w (List.mem_cons_of_mem x hw)⟩
        rw [maxSatStep_not_sat S loose range acc x hsat]
        exact hacc
    · intro v hv
      obtain ⟨hsrc, hdom, hacc⟩ := (ih (maxSatStep S loose range acc x)).2 v hv
      rcases hstepcases with ⟨hsat, heq⟩ | ⟨hsat, hcase⟩
      · -- `x` does not satisfy, the accumulator passes through
        rw [heq] at hsrc hacc
        refine ⟨?_, fun w hw hws => ?_, hacc⟩
        · rcases hsrc with ⟨hvxs, hvs⟩ | hq
          · exact Or.inl ⟨List.mem_cons_of_mem x hvxs, hvs⟩
          · exact Or.inr hq
        · rcases List.mem_cons.mp hw with hwx | hwxs
          · subst hwx
            rw [hws] at hsat
            cases hsat
          · exact hdom w hwxs hws
      · -- `x` satisfies the range, so the step takes the max of `acc` and `x`
        have hxv : S.vle x v = true := by
          rcases hcase with ⟨_, heq⟩ | ⟨b, _, _, heq⟩ | ⟨b, hacq, _, hxb, heq⟩
          · exact hacc x heq
          · exact hacc x heq
          · exact htrans x b v hxb (hacc b heq)
        refine ⟨?_, fun w hw hws => ?_, fun b₀ hb₀ => ?_⟩
        · rcases hsrc with ⟨hvxs, hvs⟩ | hstep
          · exact Or.inl ⟨List.mem_cons_of_mem x hvxs, hvs⟩
          · rcases hcase with ⟨hacq, heq⟩ | ⟨b, hacq, hle, heq⟩ |
              ⟨b, hacq, hle, hxb, heq⟩
            · rw [heq] at hstep
              injection hstep with hxveq
              exact Or.inl ⟨hxveq ▸ List.mem_cons_self x xs, hxveq ▸ hsat⟩
            · rw [heq] at hstep
              injection hstep with hxveq
              exact Or.inl ⟨hxveq ▸ List.mem_cons_self x xs, hxveq ▸ hsat⟩
            · rw [heq] at hstep
              rw [hacq, hstep]
              exact Or.inr rfl
        · rcases List.mem_cons.mp hw with hwx | hwxs
          · exact hwx ▸ hxv
          · exact hdom w hwxs hws
        · rcases hcase with ⟨hacq, heq⟩ | ⟨b, hacq, hle, heq⟩ |
            ⟨b, hacq, hle, hxb, heq⟩
          · rw [hacq] at hb₀
            cases hb₀
          · rw [hacq] at hb₀
            injection hb₀ with hb₀'
            rw [← hb₀']
            exact htrans b x v hle (hacc x heq)
          · rw [hacq] at hb₀
            injection hb₀ with hb₀'
            rw [← hb₀']
            exact hacc b heq

/-- `reduce(versions, range)` from
`src/src/package-constraint-resolver.js`: the literal range `latest` picks
`versions[versions.length - 1]`; anything else goes through
`semver.maxSatisfying` with the `looseSemver` configuration flag. -/
def reduce (S : Semver) (looseSemver : Bool) (versions : List String)
    (range : String) : Option String :=
  if range = "latest" then versions.getLast?
  else maxSatisfying S looseSemver versions range

/-- C7: `reduce` returns the last element of `versions` when the range is the
literal `latest`; otherwise it returns a maximum element of `versions`
satisfying the range under the loose-or-strict `satisfiesCfg`, and it returns
`none` exactly when no candidate satisfies (for any total transitive version
order `vle`). -/
theorem reduce_spec (S : Semver) (loose : Bool) (versions : List String)
    (range : String)
    (htot : ∀ a b, S.vle a b = true ∨ S.vle b a = true)
    (htrans : ∀ a b c, S.vle a b = true → S.vle b c = true → S.vle a c = true) :
    (range = "latest" → reduce S loose versions range = versions.getLast?) ∧
    (range ≠ "latest" →
      (∀ v, reduce S loose versions range = some v →
        v ∈ versions ∧ S.satisfiesCfg loose v range = true ∧
          ∀ w ∈ versions, S.satisfiesCfg loose w range = true →
            S.vle w v = true) ∧
      (reduce S loose versions range = none ↔
        ∀ w ∈ versions, S.satisfiesCfg loose w range = false)) := by
  constructor
  · intro h
    simp [reduce, h]
  · intro h
    have haux := maxSat_aux S loose range htot htrans versions none
    unfold reduce
    rw [if_neg h]
    constructor
    · intro v hv
      obtain ⟨hsrc, hdom, _⟩ := haux.2 v hv
      rcases hsrc with ⟨hm, hs⟩ | hq
      · exact ⟨hm, hs, hdom⟩
      · cases hq
    · rw [show maxSatisfying S loose versions range =
          versions.foldl (maxSatStep S loose range) none from rfl, haux.1]
      simp

/-- C7 witness: `reduce` at the interface where every version satisfies and
the order is trivial, on the concrete list with the range `latest`, via
`reduce_spec`. -/
theorem reduce_spec_witness :
    reduce ⟨fun _ => true, fun _ => true, fun _ _ => true, fun _ _ _ => true,
        fun _ _ => true⟩ false ["1.0.0", "1.2.0"] "latest" = some "1.2.0" := by
  have h := (reduce_spec ⟨fun _ => true, fun _ => true, fun _ _ => true,
      fun _ _ _ => true, fun _ _ => true⟩ false ["1.0.0", "1.2.0"] "latest"
    (fun a b => Or.inl rfl) (fun a b c h1 h2 => rfl)).1 rfl
  rw [h]
  rfl

/-! ## JavaScript object maps

`map()` from `src/src/util/map.js` creates a prototype-less object used as a
string-keyed dictionary.  It is modelled as an insertion-ordered association
list: lookup finds the first (unique) matching key, assignment replaces in
place or appends, `delete` removes the key. -/

abbrev JsMap (α : Type) : Type := List (String × α)

namespace JsMap

def get {α} (m : JsMap α) (k : String) : Option α :=
  (List.find? (fun e => e.1 == k) m).map (·.2)

def set {α} (m : JsMap α) (k : String) (v : α) : JsMap α :=
  if List.any m (fun e => e.1 == k) then
    List.map (fun e => if e.1 == k then (k, v) else e) m
  else
    m ++ [(k, v)]

def del {α} (m : JsMap α) (k : String) : JsMap α :=
  List.filter (fun e => e.1 != k) m

def keys {α} (m : JsMap α) : List String :=
  List.map Prod.fst m

theorem get_nil {α} (k : String) : get ([] : JsMap α) k = none := rfl

theorem get_cons {α} (p : String × α) (m : JsMap α) (k : String) :
    get (p :: m) k = if p.1 = k then some p.2 else get m k := by
  unfold get
  rw [List.find?]
  by_cases h : p.1 = k
  · rw [if_pos h]
    have : (p.1 == k) = true := by simpa using h
    rw [this]
    rfl
  · rw [if_neg h]
    have : (p.1 == k) = false := by simpa using h
    rw [this]

theorem get_eq_none_iff {α} (m : JsMap α) (k : String) :
    get m k = none ↔ k ∉ keys m := by
  induction m with
  | nil => simp [get_nil, keys]
  | cons p m ih =>
    rw [get_cons]
    by_cases h : p.1 = k
    · rw [if_pos h]
      simp [keys, h]
    · rw [if_neg h]
      rw [ih]
      simp only [keys, List.map_cons, List.mem_cons]
      constructor
      · rintro hk (hph | hmem)
        · exact h hph.symm
        · exact hk hmem
      · intro hk hmem
        exact hk (Or.inr hmem)

theorem get_mem {α} (m : JsMap α) (k : String) (v : α) (h : get m k = some v) :
    (k, v) ∈ m := by
  induction m with
  | nil => cases h
  | cons p m ih =>
    rw [get_cons] at h
    by_cases hp : p.1 = k
    · rw [if_pos hp] at h
      injection h with h
      have hkv : (k, v) = p := by rw [← hp, ← h]
      rw [hkv]
      exact List.mem_cons_self p m
    · rw [if_neg hp] at h
      exact List.mem_cons_of_mem p (ih h)

theorem mem_get {α} (m : JsMap α) (k : String) (v : α)
    (hnd : (keys m).Nodup) (h : (k, v) ∈ m) : get m k = some v := by
  induction m with
  | nil => cases h
  | cons p m ih =>
    simp only [keys, List.map_cons, List.nodup_cons] at hnd
    rw [get_cons]
    rcases List.mem_cons.mp h with hp | hm
    · rw [← hp]
      simp
    · have hk : p.1 ≠ k := by
        intro hc
        exact hnd.1 (hc ▸ (List.mem_map.mpr ⟨(k, v), hm, hc ▸ rfl⟩))
      rw [if_neg hk]
      exact ih hnd.2 hm

theorem get_del_self {α} (m : JsMap α) (k : String) : get (del m k) k = none := by
  induction m with
  | nil => rfl
  | cons p m ih =>
    unfold del at ih ⊢
    rw [List.filter]
    by_cases h : p.1 = k
    · have : (p.1 != k) = false := by simp [h]
      rw [this]
      exact ih
    · have : (p.1 != k) = true := by simp [h]
      rw [this, get_cons, if_neg h]
      exact ih

theorem get_del_ne {α} (m : JsMap α) (k q : String) (h : q ≠ k) :
    get (del m k) q = get m q := by
  induction m with
  | nil => rfl
  | cons p m ih =>
    unfold del at ih ⊢
    rw [List.filter]
    by_cases hp : p.1 = k
    · have : (p.1 != k) = false := by simp [hp]
      rw [this, get_cons, if_neg (by rw [hp]; exact fun hc => h hc.symm)]
      exact ih
    · have : (p.1 != k) = true := by simp [hp]
      rw [this, get_cons, get_cons]
      by_cases hq : p.1 = q
      · rw [if_pos hq, if_pos hq]
      · rw [if_neg hq, if_neg hq]
        exact ih

theorem get_map_replace {α} (m : JsMap α) (k : String) (v : α)
    (hany : List.any m (fun e => e.1 == k) = true) :
    get (List.map (fun e => if e.1 == k then (k, v) else e) m) k = some v := by
  induction m with
  | nil => cases hany
  | cons p m ih =>
    rw [List.map]
    by_cases hp : p.1 = k
    · have hb : (p.1 == k) = true := by simpa using hp
      rw [if_pos hb, get_cons, if_pos rfl]
    · have hb : (p.1 == k) = false := by simpa using hp
      rw [if_neg (by simp [hb]), get_cons, if_neg hp]
      apply ih
      rw [List.any_cons, hb] at hany
      simpa using hany

theorem get_append_single {α} (m : JsMap α) (k : String) (v : α)
    (hnone : get m k = none) :
    get (m ++ [(k, v)]) k = some v := by
  induction m with
  | nil => rw [List.nil_append, get_cons, if_pos rfl]
  | cons p m ih =>
    rw [get_cons] at hnone
    by_cases hp : p.1 = k
    · rw [if_pos hp] at hnone
      cases hnone
    · rw [if_neg hp] at hnone
      rw [List.cons_append, get_cons, if_neg hp]
      exact ih hnone

theorem any_key_of_get_some {α} (m : JsMap α) (k : String) (v : α)
    (h : get m k = some v) : List.any m (fun e => e.1 == k) = true := by
  induction m with
  | nil => cases h
  | cons p m ih =>
    rw [get_cons] at h
    rw [List.any_cons]
    by_cases hp : p.1 = k
    · simp [hp]
    · rw [if_neg hp] at h
      simp [ih h]

theorem get_set_self {α} (m : JsMap α) (k : String) (v : α) :
    get (set m k v) k = some v := by
  unfold set
  by_cases hany : List.any m (fun e => e.1 == k) = true
  · rw [if_pos hany]
    exact get_map_replace m k v hany
  · rw [if_neg hany]
    apply get_append_single
    cases hg : get m k with
    | none => rfl
    | some w => exact absurd (any_key_of_get_some m k w hg) hany

theorem get_set_ne {α} (m : JsMap α) (k q : String) (v : α) (h : q ≠ k) :
    get (set m k v) q = get m q := by
  unfold set
  by_cases hany : List.any m (fun e => e.1 == k) = true
  · rw [if_pos hany]
    clear hany
    induction m with
    | nil => rfl
    | cons p m ih =>
      rw [List.map]
      by_cases hp : p.1 = k
      · have hb : (p.1 == k) = true := by simpa using hp
        rw [if_pos hb, get_cons, get_cons,
          if_neg (show ¬ (k = q) from fun hc => h hc.symm),
          if_neg (show ¬ (p.1 = q) from fun hc => h (by rw [← hc]; exact hp))]
        · exact ih
      · have hb : (p.1 == k) = false := by simpa using hp
        rw [if_neg (by simp [hb]), get_cons, get_cons]
        by_cases hq : p.1 = q
        · rw [if_pos hq, if_pos hq]
        · rw [if_neg hq, if_neg hq]
          exact ih
  · rw [if_neg hany]
    induction m with
    | nil =>
      rw [List.nil_append, get_cons,
        if_neg (show ¬ (k = q) from fun hc => h hc.symm)]
    | cons p m ih =>
      rw [List.cons_append, get_cons, get_cons]
      by_cases hq : p.1 = q
      · rw [if_pos hq, if_pos hq]
      · rw [if_neg hq, if_neg hq]
        apply ih
        rw [List.any_cons] at hany
        intro hc
        exact hany (by simp [hc])

end JsMap

/-! ## Lockfile model (src/src/lockfile/index.js) -/

/-- JavaScript `a || b` on a possibly-absent string: `undefined`, `null` and
`''` are falsy. -/
def jsOrStr (a : Option String) (b : String) : String :=
  match a with
  | some s => if s = "" then b else s
  | none => b

/-- `getName(pattern)` from `src/src/lockfile/index.js`. -/
def getName (pattern : String) : String :=
  (normalizePattern pattern).name

/-- A lockfile entry as parsed from the textual lockfile: every field other
than `version` may be absent. -/
structure RawLockEntry where
  name : Option String := none
  version : String
  uid : Option String := none
  resolved : Option String := none
  integrity : Option String := none
  registry : Option String := none
  dependencies : Option (JsMap String) := none
  optionalDependencies : Option (JsMap String) := none
  permissions : Option (JsMap Bool) := none
  prebuiltVariants : Option (JsMap String) := none
  deriving DecidableEq

/-- The exploded (fully defaulted) form `LockManifest`. -/
structure LockManifest where
  name : String
  version : String
  uid : String
  resolved : Option String
  integrity : Option String
  registry : String
  dependencies : JsMap String
  optionalDependencies : JsMap String
  permissions : JsMap Bool
  prebuiltVariants : Option (JsMap String)
  deriving DecidableEq

/-- `explodeEntry(pattern, obj)` from `src/src/lockfile/index.js`: fill the
absent fields in place — empty maps for the dependency and permission maps,
the version for `uid`, `'npm'` for `registry`, the name inferred from the
pattern for `name`.  (The `integrity.isIntegrity` re-parse through `ssri`
only applies to already-parsed integrity objects, never to the textual string
form modelled here, so `integrity` passes through.) -/
def explodeEntry (pattern : String) (obj : RawLockEntry) : LockManifest where
  optionalDependencies := obj.optionalDependencies.getD []
  dependencies := obj.dependencies.getD []
  uid := jsOrStr obj.uid obj.version
  permissions := obj.permissions.getD []
  registry := jsOrStr obj.registry "npm"
  name := jsOrStr obj.name (getName pattern)
  version := obj.version
  resolved := obj.resolved
  integrity := obj.integrity
  prebuiltVariants := obj.prebuiltVariants

/-- A value in the lockfile cache: either a string (a symlink to another
entry's key) or an entry object. -/
inductive LockCacheValue where
  | link (target : String)
  | entry (e : RawLockEntry)
  deriving DecidableEq

/-- The `Lockfile` class state: the parsed cache (absent when no lockfile was
read). -/
structure Lockfile where
  cache : Option (JsMap LockCacheValue)
  deriving DecidableEq

/-- `getLocked(pattern)` from `src/src/lockfile/index.js`, with explicit
recursion fuel: `undefined` without a cache or without an entry; a string
value is followed as a link (`return this.getLocked(shrunk)`); an object is
exploded and returned.  The JavaScript recursion visits one cache key per
step and diverges on a link cycle; the fuel bounds the acyclic chain length
by the cache size. -/
def getLockedFuel : Nat → Lockfile → String → Option LockManifest
  | 0, _, _ => none
  | fuel + 1, lf, pattern =>
    match lf.cache with
    | none => none
    | some cache =>
      match JsMap.get cache pattern with
      | some (.link target) => getLockedFuel fuel lf target
      | some (.entry e) => some (explodeEntry pattern e)
      | none => none

def getLocked (lf : Lockfile) (pattern : String) : Option LockManifest :=
  getLockedFuel ((lf.cache.getD []).length + 1) lf pattern

/-- `removePattern(pattern)` from `src/src/lockfile/index.js`:
`delete cache[pattern]` when a cache exists. -/
def lockfileRemovePattern (lf : Lockfile) (pattern : String) : Lockfile :=
  match lf.cache with
  | none => lf
  | some cache => ⟨some (JsMap.del cache pattern)⟩

theorem getLockedFuel_cache_none (fuel : Nat) (lf : Lockfile)
    (pattern : String) (h : lf.cache = none) :
    getLockedFuel (fuel + 1) lf pattern = none := by
  unfold getLockedFuel
  rw [h]

theorem getLockedFuel_get_none (fuel : Nat) (lf : Lockfile) (c : JsMap LockCacheValue)
    (pattern : String) (hc : lf.cache = some c)
    (h : JsMap.get c pattern = none) :
    getLockedFuel (fuel + 1) lf pattern = none := by
  unfold getLockedFuel
  simp only [hc, h]

theorem getLockedFuel_entry (fuel : Nat) (lf : Lockfile) (c : JsMap LockCacheValue)
    (pattern : String) (e : RawLockEntry) (hc : lf.cache = some c)
    (h : JsMap.get c pattern = some (.entry e)) :
    getLockedFuel (fuel + 1) lf pattern = some (explodeEntry pattern e) := by
  unfold getLockedFuel
  simp only [hc, h]

theorem getLockedFuel_link (fuel : Nat) (lf : Lockfile) (c : JsMap LockCacheValue)
    (pattern target : String) (hc : lf.cache = some c)
    (h : JsMap.get c pattern = some (.link target)) :
    getLockedFuel (fuel + 1) lf pattern = getLockedFuel fuel lf target := by
  have hstep : getLockedFuel (fuel + 1) lf pattern =
      match lf.cache with
      | none => none
      | some cache =>
        match JsMap.get cache pattern with
        | some (.link t) => getLockedFuel fuel lf t
        | some (.entry e) => some (explodeEntry pattern e)
        | none => none := rfl
  rw [hstep]
  simp only [hc, h]

/-- C10: `getLocked` is total with defaulting — it returns `none` when the
lockfile has no cache or the cache lacks the pattern; an object entry is
returned with absent fields defaulted (name from the pattern, uid from the
version, registry `'npm'`, empty dependency/optional-dependency/permission
maps); and a string entry is followed as a link to another entry, which is
exploded against the link target's key. -/
theorem getLocked_spec (lf : Lockfile) (pattern : String) :
    (lf.cache = none → getLocked lf pattern = none) ∧
    (∀ c, lf.cache = some c → JsMap.get c pattern = none →
      getLocked lf pattern = none) ∧
    (∀ c e, lf.cache = some c →
      JsMap.get c pattern = some (.entry e) →
      getLocked lf pattern = some (explodeEntry pattern e) ∧
      (e.name = none →
        (explodeEntry pattern e).name = (normalizePattern pattern).name) ∧
      (e.uid = none → (explodeEntry pattern e).uid = e.version) ∧
      (e.registry = none → (explodeEntry pattern e).registry = "npm") ∧
      (e.dependencies = none → (explodeEntry pattern e).dependencies = []) ∧
      (e.optionalDependencies = none →
        (explodeEntry pattern e).optionalDependencies = []) ∧
      (e.permissions = none → (explodeEntry pattern e).permissions = [])) ∧
    (∀ c target e, lf.cache = some c →
      JsMap.get c pattern = some (.link target) →
      JsMap.get c target = some (.entry e) →
      getLocked lf pattern = some (explodeEntry target e)) := by
  refine ⟨?_, ?_, ?_, ?_⟩
  · intro h
    exact getLockedFuel_cache_none _ lf pattern h
  · intro c hc h
    exact getLockedFuel_get_none _ lf c pattern hc h
  · intro c e hc h
    refine ⟨getLockedFuel_entry _ lf c pattern e hc h, ?_, ?_, ?_, ?_, ?_, ?_⟩
    · intro hn
      simp [explodeEntry, jsOrStr, hn, getName]
    · intro hn
      simp [explodeEntry, jsOrStr, hn]
    · intro hn
      simp [explodeEntry, jsOrStr, hn]
    · intro hn
      simp [explodeEntry, hn]
    · intro hn
      simp [explodeEntry, hn]
    · intro hn
      simp [explodeEntry, hn]
  · intro c target e hc hlink hentry
    unfold getLocked
    rw [getLockedFuel_link _ lf c pattern target hc hlink]
    have hne : c ≠ [] :=
      List.ne_nil_of_mem (JsMap.get_mem c target (.entry e) hentry)
    obtain ⟨x, xs, hx⟩ := List.exists_cons_of_ne_nil hne
    have hfuel : (lf.cache.getD []).length = (x :: xs).length := by
      rw [hc, hx]
      rfl
    rw [hfuel]
    exact getLockedFuel_entry _ lf c target e hc hentry

/-- C10 witness: a concrete lockfile with a link entry `a@^1.0.0` pointing to
an object entry `b@^1.0.0` whose optional fields are all absent, resolved via
`getLocked_spec`. -/
theorem getLocked_spec_witness :
    getLocked ⟨some [("a@^1.0.0", .link "b@^1.0.0"),
        ("b@^1.0.0", .entry { version := "1.2.0" })]⟩ "a@^1.0.0" =
      some (explodeEntry "b@^1.0.0" { version := "1.2.0" }) :=
  (getLocked_spec ⟨some [("a@^1.0.0", .link "b@^1.0.0"),
        ("b@^1.0.0", .entry { version := "1.2.0" })]⟩ "a@^1.0.0").2.2.2
    _ "b@^1.0.0" { version := "1.2.0" } rfl (by decide) (by decide)

/-! ## Package resolver state (src/src/package-resolver.js, package-reference.js)

Manifests and `PackageReference` objects are kept in arenas (`manifests`,
`refs`) and referred to by index, modelling JavaScript object identity and
the back-pointers `manifest._reference` / `reference.patterns`. -/

/-- The `_remote` descriptor attached to a manifest during resolution. -/
structure Remote where
  type : String := ""
  resolved : Option String := none
  integrity : Option String := none
  registry : String := "npm"
  reference : Option String := none
  hash : Option String := none
  deriving DecidableEq

/-- The attributes of a resolved manifest consumed by the resolver and the
lockfile serializer. -/
structure Manifest where
  name : String
  version : String
  uid : Option String := none
  remote : Option Remote := none
  ref : Option Nat := none
  dependencies : Option (JsMap String) := none
  peerDependencies : Option (JsMap String) := none
  optionalDependencies : Option (JsMap String) := none
  prebuiltVariants : Option (JsMap String) := none
  deriving DecidableEq

/-- The mutable `PackageReference` attributes touched by the claims:
the `patterns` list and the `permissions` map. -/
structure PackageRef where
  patterns : List String := []
  permissions : JsMap Bool := []
  deriving DecidableEq

/-- The `PackageResolver` state: the arenas, the `patterns` map
(pattern → manifest index), `patternsByPackage`, the in-flight `fetchKey`
set and the lockfile. -/
structure ResolverState where
  manifests : List Manifest := []
  refs : List PackageRef := []
  patterns : JsMap Nat := []
  patternsByPackage : JsMap (List String) := []
  fetchingPatterns : List String := []
  lockfile : Lockfile := ⟨none⟩
  deriving DecidableEq

/-- `byName.splice(byName.indexOf(pattern), 1)`: with the pattern present
this removes its first occurrence; `indexOf` of an absent pattern is `-1`
and `splice(-1, 1)` removes the last element (nothing on an empty array). -/
def jsSpliceIndexOf (l : List String) (x : String) : List String :=
  if x ∈ l then l.erase x else l.dropLast

/-- `addPattern(pattern, info)` from `src/src/package-resolver.js`:
`patterns[pattern] = info`, then ensure `patternsByPackage[info.name]`
exists and push the pattern if absent.  `mid` is the arena index of `info`.
-/
def resolverAddPattern (s : ResolverState) (pattern : String) (mid : Nat)
    (info : Manifest) : ResolverState :=
  let byName := (JsMap.get s.patternsByPackage info.name).getD []
  let byName' := if pattern ∈ byName then byName else byName ++ [pattern]
  { s with
    patterns := JsMap.set s.patterns pattern mid
    patternsByPackage := JsMap.set s.patternsByPackage info.name byName' }

/-- `removePattern(pattern)` from `src/src/package-resolver.js`: bail out
when the pattern is not resolved, or when `patternsByPackage[pkg.name]` is
missing; otherwise splice the pattern out of the name's list and delete the
patterns-map entry. -/
def removePattern (s : ResolverState) (pattern : String) : ResolverState :=
  match JsMap.get s.patterns pattern with
  | none => s
  | some mid =>
    match s.manifests[mid]? with
    | none => s
    | some pkg =>
      match JsMap.get s.patternsByPackage pkg.name with
      | none => s
      | some byName =>
        { s with
          patterns := JsMap.del s.patterns pattern
          patternsByPackage :=
            JsMap.set s.patternsByPackage pkg.name (jsSpliceIndexOf byName pattern) }

theorem removePattern_none (s : ResolverState) (pattern : String)
    (h : JsMap.get s.patterns pattern = none) : removePattern s pattern = s := by
  unfold removePattern
  simp only [h]

theorem removePattern_no_byname (s : ResolverState) (pattern : String)
    (mid : Nat) (pkg : Manifest)
    (hmid : JsMap.get s.patterns pattern = some mid)
    (hpkg : s.manifests[mid]? = some pkg)
    (h : JsMap.get s.patternsByPackage pkg.name = none) :
    removePattern s pattern = s := by
  unfold removePattern
  simp only [hmid, hpkg, h]

theorem removePattern_eq (s : ResolverState) (pattern : String)
    (mid : Nat) (pkg : Manifest) (byName : List String)
    (hmid : JsMap.get s.patterns pattern = some mid)
    (hpkg : s.manifests[mid]? = some pkg)
    (hby : JsMap.get s.patternsByPackage pkg.name = some byName) :
    removePattern s pattern =
      { s with
        patterns := JsMap.del s.patterns pattern
        patternsByPackage :=
          JsMap.set s.patternsByPackage pkg.name (jsSpliceIndexOf byName pattern) } := by
  unfold removePattern
  simp only [hmid, hpkg, hby]

/-- C9 (counterexample): at the state with `patterns = {p ↦ 0}`,
`manifests = [{name n}]` and `patternsByPackage = {n ↦ [q]}`, removing `p`
splices at `indexOf(p) = -1` and deletes the *last* element `q` — a pattern
other than `p` — from the name's list, refuting the claimed frame effect. -/
theorem removePattern_frame_cex :
    (let s : ResolverState :=
      { manifests := [{ name := "n", version := "1.0.0" }]
        patterns := [("p", 0)]
        patternsByPackage := [("n", ["q"])] }
     JsMap.get s.patterns "p" = some 0 ∧
     "q" ∈ (JsMap.get s.patternsByPackage "n").getD [] ∧ "q" ≠ "p" ∧
     "q" ∉ (JsMap.get (removePattern s "p").patternsByPackage "n").getD []) := by
  decide

/-- C9 (amended): full frame characterization of `removePattern`: a pattern
that is not a key leaves the state unchanged; with a key whose manifest's
name has no `patternsByPackage` list the state is also unchanged (the
patterns-map entry is *not* deleted); with a list containing the pattern,
exactly the first occurrence of the pattern is spliced out and the
patterns-map entry deleted, everything else unchanged; with a list lacking
the pattern, the list's *last* element is removed instead. -/
theorem removePattern_frame (s : ResolverState) (pattern : String) :
    (JsMap.get s.patterns pattern = none → removePattern s pattern = s) ∧
    (∀ mid pkg, JsMap.get s.patterns pattern = some mid →
      s.manifests[mid]? = some pkg →
      JsMap.get s.patternsByPackage pkg.name = none →
      removePattern s pattern = s) ∧
    (∀ mid pkg byName, JsMap.get s.patterns pattern = some mid →
      s.manifests[mid]? = some pkg →
      JsMap.get s.patternsByPackage pkg.name = some byName →
      (JsMap.get (removePattern s pattern).patterns pattern = none ∧
       (∀ q, q ≠ pattern →
         JsMap.get (removePattern s pattern).patterns q = JsMap.get s.patterns q) ∧
       JsMap.get (removePattern s pattern).patternsByPackage pkg.name =
         some (jsSpliceIndexOf byName pattern) ∧
       (pattern ∈ byName → jsSpliceIndexOf byName pattern = byName.erase pattern) ∧
       (pattern ∉ byName → jsSpliceIndexOf byName pattern = byName.dropLast) ∧
       (∀ n, n ≠ pkg.name →
         JsMap.get (removePattern s pattern).patternsByPackage n =
           JsMap.get s.patternsByPackage n) ∧
       (removePattern s pattern).manifests = s.manifests ∧
       (removePattern s pattern).refs = s.refs ∧
       (removePattern s pattern).fetchingPatterns = s.fetchingPatterns ∧
       (removePattern s pattern).lockfile = s.lockfile)) := by
  refine ⟨removePattern_none s pattern, removePattern_no_byname s pattern, ?_⟩
  intro mid pkg byName hmid hpkg hby
  rw [removePattern_eq s pattern mid pkg byName hmid hpkg hby]
  refine ⟨JsMap.get_del_self _ _, fun q hq => JsMap.get_del_ne _ _ q hq, ?_, ?_, ?_,
    fun n hn => JsMap.get_set_ne _ _ n _ hn, rfl, rfl, rfl, rfl⟩
  · exact JsMap.get_set_self _ _ _
  · intro hmem
    unfold jsSpliceIndexOf
    rw [if_pos hmem]
  · intro hmem
    unfold jsSpliceIndexOf
    rw [if_neg hmem]

/-- C9 witness: the amended frame effect at a one-pattern state where the
name's list holds exactly the removed pattern. -/
theorem removePattern_frame_witness :
    JsMap.get
      (removePattern
        { manifests := [{ name := "n", version := "1.0.0" }]
          patterns := [("a@^1.0.0", 0)]
          patternsByPackage := [("n", ["a@^1.0.0"])] } "a@^1.0.0").patterns
      "a@^1.0.0" = none ∧
    JsMap.get
      (removePattern
        { manifests := [{ name := "n", version := "1.0.0" }]
          patterns := [("a@^1.0.0", 0)]
          patternsByPackage := [("n", ["a@^1.0.0"])] } "a@^1.0.0").patternsByPackage
      "n" = some [] := by
  have h := (removePattern_frame
    { manifests := [{ name := "n", version := "1.0.0" }]
      patterns := [("a@^1.0.0", 0)]
      patternsByPackage := [("n", ["a@^1.0.0"])] } "a@^1.0.0").2.2
    0 { name := "n", version := "1.0.0" } ["a@^1.0.0"] (by decide) rfl (by decide)
  refine ⟨h.1, ?_⟩
  rw [h.2.2.1, h.2.2.2.1 (by decide)]
  rfl

/-! ## `isLockfileEntryOutdated` and the lockfile probe of `find`
(src/src/package-resolver.js) -/

/-- `isLockfileEntryOutdated(version, range, hasVersion)` from
`src/src/package-resolver.js`: stale iff the range is a valid semver range,
the version a valid semver version, no exotic resolver matches the range,
`hasVersion` holds, and the version does not satisfy the range. -/
def isLockfileEntryOutdated (E : Semver) (version range : String)
    (hasVersion : Bool) : Bool :=
  E.validRange range && E.valid version && !(getExoticResolver range) &&
    hasVersion && !(E.satisfies version range)

/-- One scheduled dependency request (`DependencyRequestPattern`):
the fields of `find`'s argument used before the network phase. -/
structure DepRequest where
  registry : String
  pattern : String
  optional : Bool
  deriving DecidableEq

/-- ``const fetchKey = `${req.registry}:${req.pattern}:${String(req.optional)}` `` -/
def fetchKeyOf (req : DepRequest) : String :=
  req.registry ++ ":" ++ req.pattern ++ ":" ++
    (if req.optional then "true" else "false")

/-- The synchronous prefix of `find(initialReq)` from
`src/src/package-resolver.js` (lines 579–615): compute the `fetchKey`; on an
initial fetch add it to `fetchingPatterns` and probe the lockfile — a stale
entry is removed from both the resolver (`removePattern`) and the lockfile
(`lockfile.removePattern`) and the request becomes fresh; a missing entry
also makes it fresh.  Returns the updated state and the `fresh` flag.
(`resolveToResolution` and the asynchronous `request.find` that follow are
outside this fragment.) -/
def findLockfileCheck (E : Semver) (s : ResolverState) (req : DepRequest) :
    ResolverState × Bool :=
  let fetchKey := fetchKeyOf req
  if fetchKey ∉ s.fetchingPatterns then
    let s1 := { s with fetchingPatterns := s.fetchingPatterns ++ [fetchKey] }
    match getLocked s1.lockfile req.pattern with
    | some lockfileEntry =>
      let np := normalizePattern req.pattern
      if isLockfileEntryOutdated E lockfileEntry.version np.range np.hasVersion then
        let s2 := removePattern s1 req.pattern
        ({ s2 with lockfile := lockfileRemovePattern s2.lockfile req.pattern }, true)
      else
        (s1, false)
    | none => (s1, true)
  else
    (s, false)

/-- C1: the staleness formula holds exactly as specified, and when `find`'s
lockfile probe meets a stale entry on an initial fetch it removes the
pattern from the resolver's patterns map and from the lockfile and marks the
request fresh (given the resolver-side well-formedness that `removePattern`
relies on: the pattern is either unresolved or listed under its manifest's
name). -/
theorem isLockfileEntryOutdated_find_spec (E : Semver) :
    (∀ version range hasVersion,
      isLockfileEntryOutdated E version range hasVersion = true ↔
        (E.validRange range = true ∧ E.valid version = true ∧
          getExoticResolver range = false ∧ hasVersion = true ∧
          E.satisfies version range = false)) ∧
    (∀ (s : ResolverState) (req : DepRequest) (entry : LockManifest),
      fetchKeyOf req ∉ s.fetchingPatterns →
      getLocked s.lockfile req.pattern = some entry →
      isLockfileEntryOutdated E entry.version
        (normalizePattern req.pattern).range
        (normalizePattern req.pattern).hasVersion = true →
      (JsMap.get s.patterns req.pattern = none ∨
        ∃ mid pkg byName, JsMap.get s.patterns req.pattern = some mid ∧
          s.manifests[mid]? = some pkg ∧
          JsMap.get s.patternsByPackage pkg.name = some byName ∧
          req.pattern ∈ byName) →
      ((findLockfileCheck E s req).2 = true ∧
        JsMap.get (findLockfileCheck E s req).1.patterns req.pattern = none ∧
        getLocked (findLockfileCheck E s req).1.lockfile req.pattern = none)) := by
  constructor
  · intro version range hasVersion
    unfold isLockfileEntryOutdated
    constructor
    · intro h
      simp only [Bool.and_eq_true, Bool.not_eq_true'] at h
      exact ⟨h.1.1.1.1, h.1.1.1.2, by simpa using h.1.1.2, h.1.2, h.2⟩
    · rintro ⟨h1, h2, h3, h4, h5⟩
      simp [h1, h2, h3, h4, h5]
  · intro s req entry hkey hlock hstale hwf
    have hs1lock :
        ({ s with fetchingPatterns := s.fetchingPatterns ++ [fetchKeyOf req] }
          : ResolverState).lockfile = s.lockfile := rfl
    unfold findLockfileCheck
    rw [if_pos hkey]
    simp only [hs1lock, hlock, hstale, if_pos]
    set s1 : ResolverState :=
      { s with fetchingPatterns := s.fetchingPatterns ++ [fetchKeyOf req] } with hs1
    have hs1pat : s1.patterns = s.patterns := rfl
    have hs1man : s1.manifests = s.manifests := rfl
    have hs1by : s1.patternsByPackage = s.patternsByPackage := rfl
    -- the resolver-side removal
    have hrem : JsMap.get (removePattern s1 req.pattern).patterns req.pattern = none := by
      rcases hwf with hnone | ⟨mid, pkg, byName, hmid, hpkg, hby, hmem⟩
      · rw [removePattern_none s1 req.pattern (hs1pat ▸ hnone), hs1pat]
        exact hnone
      · rw [removePattern_eq s1 req.pattern mid pkg byName (hs1pat ▸ hmid)
          (hs1man ▸ hpkg) (hs1by ▸ hby)]
        exact JsMap.get_del_self _ _
    -- the lockfile-side removal
    obtain ⟨c, hcache⟩ : ∃ c, s.lockfile.cache = some c := by
      cases hcc : s.lockfile.cache with
      | none =>
        rw [show getLocked s.lockfile req.pattern =
            getLockedFuel ((s.lockfile.cache.getD []).length + 1) s.lockfile
              req.pattern from rfl,
          getLockedFuel_cache_none _ s.lockfile req.pattern hcc] at hlock
        cases hlock
      | some c => exact ⟨c, rfl⟩
    have hremlock : (removePattern s1 req.pattern).lockfile = s.lockfile := by
      rcases hwf with hnone | ⟨mid, pkg, byName, hmid, hpkg, hby, hmem⟩
      · rw [removePattern_none s1 req.pattern (hs1pat ▸ hnone)]
      · rw [removePattern_eq s1 req.pattern mid pkg byName (hs1pat ▸ hmid)
          (hs1man ▸ hpkg) (hs1by ▸ hby)]
    refine ⟨by trivial, hrem, ?_⟩
    rw [hremlock]
    have hdel : lockfileRemovePattern s.lockfile req.pattern =
        ⟨some (JsMap.del c req.pattern)⟩ := by
      unfold lockfileRemovePattern
      simp only [hcache]
    rw [hdel]
    exact (getLocked_spec ⟨some (JsMap.del c req.pattern)⟩ req.pattern).2.1
      (JsMap.del c req.pattern) rfl (JsMap.get_del_self c req.pattern)

/-- C1 witness: a concrete stale probe — the lockfile holds `1.0.0` for
`left-pad@^1.2.0` under an interface where the version does not satisfy the
range; `find`'s probe removes it from both maps and marks the request
fresh (via `isLockfileEntryOutdated_find_spec`). -/
theorem isLockfileEntryOutdated_find_spec_witness :
    ((findLockfileCheck
        ⟨fun _ => true, fun _ => true, fun _ _ => false, fun _ _ _ => false,
          fun _ _ => true⟩
        { lockfile := ⟨some [("left-pad@^1.2.0",
            .entry { version := "1.0.0" })]⟩ }
        { registry := "npm", pattern := "left-pad@^1.2.0",
          optional := false }).2 = true ∧
      JsMap.get (findLockfileCheck
        ⟨fun _ => true, fun _ => true, fun _ _ => false, fun _ _ _ => false,
          fun _ _ => true⟩
        { lockfile := ⟨some [("left-pad@^1.2.0",
            .entry { version := "1.0.0" })]⟩ }
        { registry := "npm", pattern := "left-pad@^1.2.0",
          optional := false }).1.patterns "left-pad@^1.2.0" = none ∧
      getLocked (findLockfileCheck
        ⟨fun _ => true, fun _ => true, fun _ _ => false, fun _ _ _ => false,
          fun _ _ => true⟩
        { lockfile := ⟨some [("left-pad@^1.2.0",
            .entry { version := "1.0.0" })]⟩ }
        { registry := "npm", pattern := "left-pad@^1.2.0",
          optional := false }).1.lockfile "left-pad@^1.2.0" = none) :=
  (isLockfileEntryOutdated_find_spec
      ⟨fun _ => true, fun _ => true, fun _ _ => false, fun _ _ _ => false,
        fun _ _ => true⟩).2
    { lockfile := ⟨some [("left-pad@^1.2.0", .entry { version := "1.0.0" })]⟩ }
    { registry := "npm", pattern := "left-pad@^1.2.0", optional := false }
    (explodeEntry "left-pad@^1.2.0" { version := "1.0.0" })
    (by decide) (by decide) (by decide) (Or.inl (by decide))

/-! ## `getLockfile` (src/src/lockfile/index.js)

The serialized entries are JavaScript objects shared by aliasing; they are
kept in a `store : List MinimalLockManifest` arena, the output `lockfile`
object maps each pattern to an entry index. -/

/-- JavaScript truthiness of a possibly-absent string. -/
def jsTruthyStr : Option String → Bool
  | none => false
  | some s => s ≠ ""

/-- `keyForRemote(remote)` from `src/src/lockfile/index.js`:
`remote.resolved || (remote.reference && remote.hash ? reference#hash :
null)`. -/
def keyForRemote (remote : Remote) : Option String :=
  if jsTruthyStr remote.resolved then remote.resolved
  else if jsTruthyStr remote.reference && jsTruthyStr remote.hash then
    some ((remote.reference.getD "") ++ "#" ++ (remote.hash.getD ""))
  else none

/-- `serializeIntegrity(integrity)`: tokenize the integrity string on spaces,
sort, re-join — `integrity.toString().split(' ').sort().join(' ')`. -/
def serializeIntegrity (integrity : String) : String :=
  String.intercalate " "
    (List.insertionSort (fun a b : String => a ≤ b)
      ((jsSplitChar ' ' integrity.toList).map String.mk))

/-- `blankObjectUndefined(obj)`: an absent or empty object becomes
`undefined`. -/
def blankObjectUndefined {α : Type} (obj : Option (JsMap α)) : Option (JsMap α) :=
  match obj with
  | some m => if m.length ≠ 0 then some m else none
  | none => none

/-- The object literal passed to `implodeEntry` by `getLockfile`
(`peerDependencies` is passed but has no counterpart in the imploded
entry). -/
structure ImplodeInput where
  name : String
  version : String
  uid : Option String
  resolved : Option String
  integrity : Option String
  registry : String
  dependencies : Option (JsMap String)
  peerDependencies : Option (JsMap String)
  optionalDependencies : Option (JsMap String)
  permissions : JsMap Bool
  prebuiltVariants : Option (JsMap String)
  deriving DecidableEq

/-- A serialized lockfile entry (`MinimalLockManifest`): fields equal to
their inferable defaults are dropped (`undefined`). -/
structure MinimalLockManifest where
  name : Option String
  version : String
  uid : Option String
  resolved : Option String
  registry : Option String
  dependencies : Option (JsMap String)
  optionalDependencies : Option (JsMap String)
  permissions : Option (JsMap Bool)
  prebuiltVariants : Option (JsMap String)
  integrity : Option String
  deriving DecidableEq

/-- `implodeEntry(pattern, obj)` from `src/src/lockfile/index.js`: drop the
name when it is the one inferred from the pattern, the uid when it equals
the version, the registry when it is `'npm'`; blank dependency, permission
and prebuilt maps become `undefined`; a truthy integrity is canonicalized by
`serializeIntegrity` and attached last. -/
def implodeEntry (pattern : String) (obj : ImplodeInput) : MinimalLockManifest :=
  let inferredName := getName pattern
  let integrity : String :=
    match obj.integrity with
    | some i => if i ≠ "" then serializeIntegrity i else ""
    | none => ""
  let imploded : MinimalLockManifest :=
    { name := if inferredName = obj.name then none else some obj.name
      version := obj.version
      uid := if obj.uid = some obj.version then none else obj.uid
      resolved := obj.resolved
      registry := if obj.registry = "npm" then none else some obj.registry
      dependencies := blankObjectUndefined obj.dependencies
      optionalDependencies := blankObjectUndefined obj.optionalDependencies
      permissions := blankObjectUndefined (some obj.permissions)
      prebuiltVariants := blankObjectUndefined obj.prebuiltVariants
      integrity := none }
  if integrity ≠ "" then { imploded with integrity := some integrity }
  else imploded

/-- Modelled from the spec: `sortAlpha` from `src/util/misc.js` is not under
`src/`; §4.C and §5 say `getLockfile` sorts the patterns *alphabetically*
("deterministic … sorts patterns alphabetically").  Modelled as the
lexicographic `String` order. -/
abbrev sortAlpha (a b : String) : Prop := a ≤ b

/-- The `ImplodeInput` built by `getLockfile` for one pattern: fails where
the source's `invariant(ref)` / `invariant(remote)` throw. -/
def getLockfileEntryOf (refs : List PackageRef)
    (lookup : String → Option Manifest) (pattern : String) :
    Option MinimalLockManifest :=
  match lookup pattern with
  | none => none
  | some pkg =>
    match pkg.remote, pkg.ref with
    | some remote, some rid =>
      match refs[rid]? with
      | none => none
      | some ref =>
        some (implodeEntry pattern
          { name := pkg.name
            version := pkg.version
            uid := pkg.uid
            resolved := remote.resolved
            integrity := remote.integrity
            registry := remote.registry
            dependencies := pkg.dependencies
            peerDependencies := pkg.peerDependencies
            optionalDependencies := pkg.optionalDependencies
            permissions := ref.permissions
            prebuiltVariants := pkg.prebuiltVariants })
    | _, _ => none

/-- The remote key `getLockfile` computes for one pattern. -/
def remoteKeyOf (lookup : String → Option Manifest) (pattern : String) :
    Option String :=
  match lookup pattern with
  | none => none
  | some pkg =>
    match pkg.remote with
    | some remote => keyForRemote remote
    | none => none

/-- The `seenPattern` aliasing branch of `getLockfile`: when the shared
entry relies on an inferred name and the new pattern infers a different one,
set the entry's `name` (`seenPattern.name = pkg.name`). -/
def storeBackfill (store : List MinimalLockManifest) (entryId : Nat)
    (pattern : String) (pkgName : String) : List MinimalLockManifest :=
  match store[entryId]? with
  | some entry =>
    if ¬ jsTruthyStr entry.name = true ∧ getName pattern ≠ pkgName then
      store.set entryId { entry with name := some pkgName }
    else store
  | none => store

/-- One iteration of `getLockfile`'s loop over the sorted pattern keys. -/
def getLockfileStep (refs : List PackageRef)
    (lookup : String → Option Manifest) (pattern : String)
    (lockfile seen : JsMap Nat) (store : List MinimalLockManifest) :
    Option (JsMap Nat × JsMap Nat × List MinimalLockManifest) :=
  match lookup pattern with
  | none => none
  | some pkg =>
    match pkg.remote, pkg.ref with
    | some remote, some rid =>
      match refs[rid]? with
      | none => none
      | some ref =>
        let remoteKey := keyForRemote remote
        -- `const seenPattern = remoteKey && seen.get(remoteKey)`
        match remoteKey.bind (fun k => JsMap.get seen k) with
        | some entryId =>
          -- `lockfile[pattern] = seenPattern`, back-filling a missing name
          some (JsMap.set lockfile pattern entryId, seen,
            storeBackfill store entryId pattern pkg.name)
        | none =>
          match getLockfileEntryOf refs lookup pattern with
          | none => none
          | some obj =>
            let entryId := store.length
            let seen' :=
              match remoteKey with
              | some k => JsMap.set seen k entryId
              | none => seen
            some (JsMap.set lockfile pattern entryId, seen',
              store ++ [obj])
    | _, _ => none

def getLockfileGo (refs : List PackageRef)
    (lookup : String → Option Manifest) :
    List String → JsMap Nat → JsMap Nat → List MinimalLockManifest →
      Option (JsMap Nat × List MinimalLockManifest)
  | [], lockfile, _, store => some (lockfile, store)
  | pattern :: rest, lockfile, seen, store =>
    match getLockfileStep refs lookup pattern lockfile seen store with
    | none => none
    | some (lockfile', seen', store') =>
      getLockfileGo refs lookup rest lockfile' seen' store'

/-- `getLockfile(patterns)` from `src/src/lockfile/index.js`: iterate over
`Object.keys(patterns).sort(sortAlpha)`, serializing each manifest and
deduplicating entries that share a remote key.  `refs` is the arena holding
the `_reference` objects (for `ref.permissions`). -/
def getLockfile (refs : List PackageRef) (patterns : JsMap Manifest) :
    Option (JsMap Nat × List MinimalLockManifest) :=
  getLockfileGo refs (fun k => JsMap.get patterns k)
    (List.insertionSort sortAlpha (JsMap.keys patterns)) [] [] []

namespace GetLockfile

variable (refs : List PackageRef) (lookup : String → Option Manifest)

/-- Entry equality up to the `name` field (the only field the dedup pass may
back-fill on a shared entry). -/
def eqExceptName (e₀ e : MinimalLockManifest) : Prop :=
  e.version = e₀.version ∧ e.uid = e₀.uid ∧ e.resolved = e₀.resolved ∧
    e.registry = e₀.registry ∧ e.dependencies = e₀.dependencies ∧
    e.optionalDependencies = e₀.optionalDependencies ∧
    e.permissions = e₀.permissions ∧
    e.prebuiltVariants = e₀.prebuiltVariants ∧ e.integrity = e₀.integrity

theorem eqExceptName_refl (e : MinimalLockManifest) : eqExceptName e e :=
  ⟨rfl, rfl, rfl, rfl, rfl, rfl, rfl, rfl, rfl⟩

theorem eqExceptName_trans (a b c : MinimalLockManifest)
    (h1 : eqExceptName a b) (h2 : eqExceptName b c) : eqExceptName a c := by
  obtain ⟨x1, x2, x3, x4, x5, x6, x7, x8, x9⟩ := h1
  obtain ⟨y1, y2, y3, y4, y5, y6, y7, y8, y9⟩ := h2
  exact ⟨y1.trans x1, y2.trans x2, y3.trans x3, y4.trans x4, y5.trans x5,
    y6.trans x6, y7.trans x7, y8.trans x8, y9.trans x9⟩

theorem eqExceptName_set_name (e : MinimalLockManifest) (n : Option String) :
    eqExceptName e { e with name := n } :=
  ⟨rfl, rfl, rfl, rfl, rfl, rfl, rfl, rfl, rfl⟩

theorem lt_length_of_getElem?_some {α : Type} (l : List α) (j : Nat) (a : α)
    (h : l[j]? = some a) : j < l.length := by
  obtain ⟨hlt, _⟩ := List.getElem?_eq_some_iff.mp h
  exact hlt

theorem storeBackfill_rel (store : List MinimalLockManifest) (entryId : Nat)
    (pattern pkgName : String) :
    ∀ (j : Nat) (e₀ : MinimalLockManifest), store[j]? = some e₀ →
      ∃ e, (storeBackfill store entryId pattern pkgName)[j]? = some e ∧
        eqExceptName e₀ e := by
  intro j e₀ hj
  unfold storeBackfill
  cases hent : store[entryId]? with
  | none => exact ⟨e₀, hj, eqExceptName_refl e₀⟩
  | some entry =>
    simp only
    split
    · by_cases hje : entryId = j
      · subst hje
        rw [hj] at hent
        injection hent with hent
        subst hent
        refine ⟨{ e₀ with name := some pkgName }, ?_, eqExceptName_set_name e₀ _⟩
        exact List.getElem?_set_eq_of_lt _ (lt_length_of_getElem?_some _ _ _ hj)
      · refine ⟨e₀, ?_, eqExceptName_refl e₀⟩
        rw [List.getElem?_set_ne hje]
        exact hj
    · exact ⟨e₀, hj, eqExceptName_refl e₀⟩

/-- Characterization of a successful `getLockfileStep`: either the remote key
was already seen (the pattern aliases the seen entry, with a possible name
back-fill), or a fresh entry is imploded and appended — recording the remote
key when there is one. -/
theorem step_cases (pattern : String) (lockfile seen : JsMap Nat)
    (store : List MinimalLockManifest) (l' s' : JsMap Nat)
    (st' : List MinimalLockManifest)
    (h : getLockfileStep refs lookup pattern lockfile seen store =
      some (l', s', st')) :
    (∃ pkg k entryId, lookup pattern = some pkg ∧
      remoteKeyOf lookup pattern = some k ∧
      JsMap.get seen k = some entryId ∧
      l' = JsMap.set lockfile pattern entryId ∧ s' = seen ∧
      st' = storeBackfill store entryId pattern pkg.name) ∨
    (∃ obj k, remoteKeyOf lookup pattern = some k ∧
      JsMap.get seen k = none ∧
      getLockfileEntryOf refs lookup pattern = some obj ∧
      l' = JsMap.set lockfile pattern store.length ∧
      s' = JsMap.set seen k store.length ∧ st' = store ++ [obj]) ∨
    (∃ obj, remoteKeyOf lookup pattern = none ∧
      getLockfileEntryOf refs lookup pattern = some obj ∧
      l' = JsMap.set lockfile pattern store.length ∧ s' = seen ∧
      st' = store ++ [obj]) := by
  unfold getLockfileStep at h
  cases hlk : lookup pattern with
  | none => rw [hlk] at h; cases h
  | some pkg =>
    rw [hlk] at h
    simp only at h
    cases hrem : pkg.remote with
    | none => rw [hrem] at h; cases h
    | some remote =>
      cases href : pkg.ref with
      | none => rw [hrem, href] at h; cases h
      | some rid =>
        rw [hrem, href] at h
        simp only at h
        cases hrefs : refs[rid]? with
        | none => rw [hrefs] at h; cases h
        | some ref =>
          rw [hrefs] at h
          simp only at h
          have hrk : remoteKeyOf lookup pattern = keyForRemote remote := by
            simp [remoteKeyOf, hlk, hrem]
          cases hkey : keyForRemote remote with
          | none =>
            rw [hkey] at h
            simp only [Option.none_bind] at h
            cases hobj : getLockfileEntryOf refs lookup pattern with
            | none => rw [hobj] at h; cases h
            | some obj =>
              rw [hobj] at h
              simp only at h
              injection h with h1
              injection h1 with h1 h2
              injection h2 with h2 h3
              exact Or.inr (Or.inr ⟨obj, hrk.trans hkey, rfl, h1.symm,
                h2.symm, h3.symm⟩)
          | some k =>
            rw [hkey] at h
            simp only [Option.some_bind] at h
            cases hseen : JsMap.get seen k with
            | some entryId =>
              rw [hseen] at h
              simp only at h
              injection h with h1
              injection h1 with h1 h2
              injection h2 with h2 h3
              exact Or.inl ⟨pkg, k, entryId, rfl, hrk.trans hkey, hseen,
                h1.symm, h2.symm, h3.symm⟩
            | none =>
              rw [hseen] at h
              simp only at h
              cases hobj : getLockfileEntryOf refs lookup pattern with
              | none => rw [hobj] at h; cases h
              | some obj =>
                rw [hobj] at h
                simp only at h
                injection h with h1
                injection h1 with h1 h2
                injection h2 with h2 h3
                exact Or.inr (Or.inl ⟨obj, k, hrk.trans hkey, hseen, rfl,
                  h1.symm, h2.symm, h3.symm⟩)

theorem step_lock_shape (pattern : String) (lockfile seen : JsMap Nat)
    (store : List MinimalLockManifest) (l' s' : JsMap Nat)
    (st' : List MinimalLockManifest)
    (h : getLockfileStep refs lookup pattern lockfile seen store =
      some (l', s', st')) :
    ∃ id, l' = JsMap.set lockfile pattern id := by
  rcases step_cases refs lookup pattern lockfile seen store l' s' st' h with
    ⟨pkg, k, id, _, _, _, hl, _, _⟩ | ⟨obj, k, _, _, _, hl, _, _⟩ |
    ⟨obj, _, _, hl, _, _⟩ <;> exact ⟨_, hl⟩

theorem step_seen_mono (pattern : String) (lockfile seen : JsMap Nat)
    (store : List MinimalLockManifest) (l' s' : JsMap Nat)
    (st' : List MinimalLockManifest)
    (h : getLockfileStep refs lookup pattern lockfile seen store =
      some (l', s', st')) :
    ∀ k id, JsMap.get seen k = some id → JsMap.get s' k = some id := by
  intro k id hk
  rcases step_cases refs lookup pattern lockfile seen store l' s' st' h with
    ⟨pkg, k', id', _, _, _, _, hs, _⟩ | ⟨obj, k', _, hnone, _, _, hs, _⟩ |
    ⟨obj, _, _, _, hs, _⟩
  · rw [hs]; exact hk
  · rw [hs]
    rw [JsMap.get_set_ne seen k' k _ (by
      intro hc
      rw [← hc] at hnone
      rw [hk] at hnone
      cases hnone)]
    exact hk
  · rw [hs]; exact hk

theorem step_store_rel (pattern : String) (lockfile seen : JsMap Nat)
    (store : List MinimalLockManifest) (l' s' : JsMap Nat)
    (st' : List MinimalLockManifest)
    (h : getLockfileStep refs lookup pattern lockfile seen store =
      some (l', s', st')) :
    ∀ (j : Nat) (e₀ : MinimalLockManifest), store[j]? = some e₀ →
      ∃ e, st'[j]? = some e ∧ eqExceptName e₀ e := by
  intro j e₀ hj
  rcases step_cases refs lookup pattern lockfile seen store l' s' st' h with
    ⟨pkg, k, id, _, _, _, _, _, hst⟩ | ⟨obj, k, _, _, _, _, _, hst⟩ |
    ⟨obj, _, _, _, _, hst⟩
  · rw [hst]
    exact storeBackfill_rel store id pattern pkg.name j e₀ hj
  · rw [hst]
    refine ⟨e₀, ?_, eqExceptName_refl e₀⟩
    rw [List.getElem?_append_left (lt_length_of_getElem?_some _ _ _ hj)]
    exact hj
  · rw [hst]
    refine ⟨e₀, ?_, eqExceptName_refl e₀⟩
    rw [List.getElem?_append_left (lt_length_of_getElem?_some _ _ _ hj)]
    exact hj

theorem entryOf_congr (f g : String → Option Manifest) (pattern : String)
    (h : f pattern = g pattern) :
    getLockfileEntryOf refs f pattern = getLockfileEntryOf refs g pattern := by
  unfold getLockfileEntryOf
  rw [h]

theorem step_congr (f g : String → Option Manifest) (pattern : String)
    (h : f pattern = g pattern) (lockfile seen : JsMap Nat)
    (store : List MinimalLockManifest) :
    getLockfileStep refs f pattern lockfile seen store =
      getLockfileStep refs g pattern lockfile seen store := by
  unfold getLockfileStep
  rw [h, entryOf_congr refs f g pattern h]

theorem go_congr (f g : String → Option Manifest) :
    ∀ (keys : List String) (lockfile seen : JsMap Nat)
      (store : List MinimalLockManifest),
      (∀ k ∈ keys, f k = g k) →
      getLockfileGo refs f keys lockfile seen store =
        getLockfileGo refs g keys lockfile seen store := by
  intro keys
  induction keys with
  | nil => intro l seen store _; rfl
  | cons x rest ih =>
    intro l seen store hfg
    show (match getLockfileStep refs f x l seen store with
      | none => none
      | some (l', s', st') => getLockfileGo refs f rest l' s' st') =
      (match getLockfileStep refs g x l seen store with
      | none => none
      | some (l', s', st') => getLockfileGo refs g rest l' s' st')
    rw [step_congr refs f g x (hfg x (List.mem_cons_self x rest)) l seen store]
    cases hs : getLockfileStep refs g x l seen store with
    | none => rfl
    | some t =>
      obtain ⟨l', s', st'⟩ := t
      exact ih l' s' st' (fun k hk => hfg k (List.mem_cons_of_mem x hk))

theorem go_preserve_lock :
    ∀ (keys : List String) (l seen : JsMap Nat)
      (store : List MinimalLockManifest) (lm : JsMap Nat)
      (st : List MinimalLockManifest),
      getLockfileGo refs lookup keys l seen store = some (lm, st) →
      ∀ q, q ∉ keys → JsMap.get lm q = JsMap.get l q := by
  intro keys
  induction keys with
  | nil =>
    intro l seen store lm st h q _
    injection h with h
    injection h with h1 h2
    rw [← h1]
  | cons x rest ih =>
    intro l seen store lm st h q hq
    have hq' : q ≠ x ∧ q ∉ rest := by
      rw [List.mem_cons] at hq
      push_neg at hq
      exact hq
    rw [show getLockfileGo refs lookup (x :: rest) l seen store =
      (match getLockfileStep refs lookup x l seen store with
      | none => none
      | some (l', s', st') => getLockfileGo refs lookup rest l' s' st')
      from rfl] at h
    cases hs : getLockfileStep refs lookup x l seen store with
    | none => rw [hs] at h; cases h
    | some t =>
      obtain ⟨l', s', st'⟩ := t
      rw [hs] at h
      simp only at h
      obtain ⟨id, hl'⟩ := step_lock_shape refs lookup x l seen store l' s' st' hs
      rw [ih l' s' st' lm st h q hq'.2, hl',
        JsMap.get_set_ne l x q id hq'.1]

theorem go_store_rel :
    ∀ (keys : List String) (l seen : JsMap Nat)
      (store : List MinimalLockManifest) (lm : JsMap Nat)
      (st : List MinimalLockManifest),
      getLockfileGo refs lookup keys l seen store = some (lm, st) →
      ∀ (j : Nat) (e₀ : MinimalLockManifest), store[j]? = some e₀ →
        ∃ e, st[j]? = some e ∧ eqExceptName e₀ e := by
  intro keys
  induction keys with
  | nil =>
    intro l seen store lm st h j e₀ hj
    injection h with h
    injection h with h1 h2
    rw [← h2]
    exact ⟨e₀, hj, eqExceptName_refl e₀⟩
  | cons x rest ih =>
    intro l seen store lm st h j e₀ hj
    rw [show getLockfileGo refs lookup (x :: rest) l seen store =
      (match getLockfileStep refs lookup x l seen store with
      | none => none
      | some (l', s', st') => getLockfileGo refs lookup rest l' s' st')
      from rfl] at h
    cases hs : getLockfileStep refs lookup x l seen store with
    | none => rw [hs] at h; cases h
    | some t =>
      obtain ⟨l', s', st'⟩ := t
      rw [hs] at h
      simp only at h
      obtain ⟨e1, he1, heq1⟩ :=
        step_store_rel refs lookup x l seen store l' s' st' hs j e₀ hj
      obtain ⟨e2, he2, heq2⟩ := ih l' s' st' lm st h j e1 he1
      exact ⟨e2, he2, eqExceptName_trans e₀ e1 e2 heq1 heq2⟩

theorem go_seen_assigns :
    ∀ (keys : List String), keys.Nodup →
      ∀ (l seen : JsMap Nat) (store : List MinimalLockManifest)
        (lm : JsMap Nat) (st : List MinimalLockManifest),
        getLockfileGo refs lookup keys l seen store = some (lm, st) →
        ∀ a ∈ keys, ∀ (k : String) (id : Nat),
          remoteKeyOf lookup a = some k → JsMap.get seen k = some id →
          JsMap.get lm a = some id := by
  intro keys
  induction keys with
  | nil =>
    intro _ l seen store lm st h a ha
    cases ha
  | cons x rest ih =>
    intro hnd l seen store lm st h a ha k id hrk hseen
    rw [List.nodup_cons] at hnd
    rw [show getLockfileGo refs lookup (x :: rest) l seen store =
      (match getLockfileStep refs lookup x l seen store with
      | none => none
      | some (l', s', st') => getLockfileGo refs lookup rest l' s' st')
      from rfl] at h
    cases hs : getLockfileStep refs lookup x l seen store with
    | none => rw [hs] at h; cases h
    | some t =>
      obtain ⟨l', s', st'⟩ := t
      rw [hs] at h
      simp only at h
      rcases List.mem_cons.mp ha with hax | har
      · subst hax
        rcases step_cases refs lookup a l seen store l' s' st' hs with
          ⟨pkg, k1, id1, _, hrk1, hseen1, hl, _, _⟩ |
          ⟨obj, k2, hrk2, hnone2, _, _, _, _⟩ | ⟨obj, hrkn, _, _, _, _⟩
        · rw [hrk1] at hrk
          injection hrk with hrkk
          rw [hrkk] at hseen1
          rw [hseen] at hseen1
          injection hseen1 with hid
          rw [go_preserve_lock refs lookup rest l' s' st' lm st h a hnd.1, hl,
            JsMap.get_set_self, ← hid]
        · rw [hrk2] at hrk
          injection hrk with hrkk
          rw [hrkk] at hnone2
          rw [hseen] at hnone2
          cases hnone2
        · rw [hrkn] at hrk
          cases hrk
      · exact ih hnd.2 l' s' st' lm st h a har k id hrk
          (step_seen_mono refs lookup x l seen store l' s' st' hs k id hseen)

theorem go_creates :
    ∀ (keys : List String),
      List.Sorted (fun a b : String => a ≤ b) keys → keys.Nodup →
      ∀ (l seen : JsMap Nat) (store : List MinimalLockManifest)
        (lm : JsMap Nat) (st : List MinimalLockManifest),
        getLockfileGo refs lookup keys l seen store = some (lm, st) →
        ∀ a ∈ keys, ∀ (k : String),
          remoteKeyOf lookup a = some k → JsMap.get seen k = none →
          ∃ c id, c ∈ keys ∧ remoteKeyOf lookup c = some k ∧
            (∀ b ∈ keys, remoteKeyOf lookup b = some k → c ≤ b) ∧
            JsMap.get lm c = some id ∧ JsMap.get lm a = some id ∧
            ∃ e obj, st[id]? = some e ∧
              getLockfileEntryOf refs lookup c = some obj ∧
              eqExceptName obj e := by
  intro keys
  induction keys with
  | nil =>
    intro _ _ l seen store lm st h a ha
    cases ha
  | cons x rest ih =>
    intro hsorted hnd l seen store lm st h a ha k hrk hseen
    obtain ⟨hxle, hsorted'⟩ := List.sorted_cons.mp hsorted
    rw [List.nodup_cons] at hnd
    rw [show getLockfileGo refs lookup (x :: rest) l seen store =
      (match getLockfileStep refs lookup x l seen store with
      | none => none
      | some (l', s', st') => getLockfileGo refs lookup rest l' s' st')
      from rfl] at h
    cases hs : getLockfileStep refs lookup x l seen store with
    | none => rw [hs] at h; cases h
    | some t =>
      obtain ⟨l', s', st'⟩ := t
      rw [hs] at h
      simp only at h
      -- facts when `x` itself carries the key `k`
      rcases List.mem_cons.mp ha with hax | har
      · -- `a = x`: `x` creates the entry
        subst hax
        rcases step_cases refs lookup a l seen store l' s' st' hs with
          ⟨pkg, k1, id1, _, hrk1, hseen1, _, _, _⟩ |
          ⟨obj, k2, hrk2, hnone2, hobj, hl, hsn, hst⟩ |
          ⟨obj, hrkn, _, _, _, _⟩
        · rw [hrk1] at hrk
          injection hrk with hrkk
          rw [hrkk] at hseen1
          rw [hseen] at hseen1
          cases hseen1
        · refine ⟨a, store.length, List.mem_cons_self a rest, hrk, ?_, ?_, ?_, ?_⟩
          · intro b hb _
            rcases List.mem_cons.mp hb with hbx | hbr
            · rw [hbx]
            · exact hxle b hbr
          · rw [go_preserve_lock refs lookup rest l' s' st' lm st h a hnd.1, hl,
              JsMap.get_set_self]
          · rw [go_preserve_lock refs lookup rest l' s' st' lm st h a hnd.1, hl,
              JsMap.get_set_self]
          · have hcreated : st'[store.length]? = some obj := by
              rw [hst]
              exact List.getElem?_concat_length store obj
            obtain ⟨e, he, heq⟩ :=
              go_store_rel refs lookup rest l' s' st' lm st h store.length obj
                hcreated
            exact ⟨e, obj, he, hobj, heq⟩
        · rw [hrkn] at hrk
          cases hrk
      · -- `a` comes later
        by_cases hx : remoteKeyOf lookup x = some k
        · -- `x` is the creator
          rcases step_cases refs lookup x l seen store l' s' st' hs with
            ⟨pkg, k1, id1, _, hrk1, hseen1, _, _, _⟩ |
            ⟨obj, k2, hrk2, hnone2, hobj, hl, hsn, hst⟩ |
            ⟨obj, hrkn, _, _, _, _⟩
          · rw [hrk1] at hx
            injection hx with hxk
            rw [hxk] at hseen1
            rw [hseen] at hseen1
            cases hseen1
          · rw [hrk2] at hx
            injection hx with hxk
            rw [hxk] at hrk2 hsn hnone2
            have hs'k : JsMap.get s' k = some store.length := by
              rw [hsn]
              exact JsMap.get_set_self seen k store.length
            have hlma : JsMap.get lm a = some store.length :=
              go_seen_assigns refs lookup rest hnd.2 l' s' st' lm st h a har
                k store.length hrk hs'k
            refine ⟨x, store.length, List.mem_cons_self x rest, hrk2, ?_, ?_,
              hlma, ?_⟩
            · intro b hb _
              rcases List.mem_cons.mp hb with hbx | hbr
              · rw [hbx]
              · exact hxle b hbr
            · rw [go_preserve_lock refs lookup rest l' s' st' lm st h x hnd.1,
                hl, JsMap.get_set_self]
            · have hcreated : st'[store.length]? = some obj := by
                rw [hst]
                exact List.getElem?_concat_length store obj
              obtain ⟨e, he, heq⟩ :=
                go_store_rel refs lookup rest l' s' st' lm st h store.length obj
                  hcreated
              exact ⟨e, obj, he, hobj, heq⟩
          · rw [hrkn] at hx
            cases hx
        · -- the key `k` is still unseen after `x`
          have hs'k : JsMap.get s' k = none := by
            rcases step_cases refs lookup x l seen store l' s' st' hs with
              ⟨pkg, k1, id1, _, _, _, _, hsn, _⟩ |
              ⟨obj, k2, hrk2, hnone2, _, _, hsn, _⟩ |
              ⟨obj, _, _, _, hsn, _⟩
            · rw [hsn]; exact hseen
            · rw [hsn]
              rw [JsMap.get_set_ne seen k2 k store.length (by
                intro hc
                rw [← hc] at hrk2
                exact hx hrk2)]
              exact hseen
            · rw [hsn]; exact hseen
          obtain ⟨c, id, hc, hcrk, hcmin, hlmc, hlma, hstore⟩ :=
            ih hsorted' hnd.2 l' s' st' lm st h a har k hrk hs'k
          refine ⟨c, id, List.mem_cons_of_mem x hc, hcrk, ?_, hlmc, hlma, hstore⟩
          intro b hb hbrk
          rcases List.mem_cons.mp hb with hbx | hbr
          · rw [hbx] at hbrk
            exact absurd hbrk hx
          · exact hcmin b hbr hbrk

theorem set_eq_append {α : Type} (m : JsMap α) (k : String) (v : α)
    (h : k ∉ JsMap.keys m) : JsMap.set m k v = m ++ [(k, v)] := by
  unfold JsMap.set
  rw [if_neg]
  intro hany
  obtain ⟨e, hem, hek⟩ := List.any_eq_true.mp hany
  exact h (List.mem_map.mpr ⟨e, hem, by simpa using hek⟩)

theorem keys_append_single {α : Type} (m : JsMap α) (k : String) (v : α) :
    JsMap.keys (m ++ [(k, v)]) = JsMap.keys m ++ [k] := by
  unfold JsMap.keys
  rw [List.map_append]
  rfl

theorem go_keys :
    ∀ (keys : List String) (l seen : JsMap Nat)
      (store : List MinimalLockManifest) (lm : JsMap Nat)
      (st : List MinimalLockManifest),
      keys.Nodup → (∀ k ∈ keys, k ∉ JsMap.keys l) →
      getLockfileGo refs lookup keys l seen store = some (lm, st) →
      JsMap.keys lm = JsMap.keys l ++ keys := by
  intro keys
  induction keys with
  | nil =>
    intro l seen store lm st _ _ h
    injection h with h
    injection h with h1 _
    rw [← h1, List.append_nil]
  | cons x rest ih =>
    intro l seen store lm st hnd hfresh h
    rw [List.nodup_cons] at hnd
    rw [show getLockfileGo refs lookup (x :: rest) l seen store =
      (match getLockfileStep refs lookup x l seen store with
      | none => none
      | some (l', s', st') => getLockfileGo refs lookup rest l' s' st')
      from rfl] at h
    cases hs : getLockfileStep refs lookup x l seen store with
    | none => rw [hs] at h; cases h
    | some t =>
      obtain ⟨l', s', st'⟩ := t
      rw [hs] at h
      simp only at h
      obtain ⟨id, hl'⟩ := step_lock_shape refs lookup x l seen store l' s' st' hs
      have hxl : x ∉ JsMap.keys l := hfresh x (List.mem_cons_self x rest)
      have hkeysl' : JsMap.keys l' = JsMap.keys l ++ [x] := by
        rw [hl', set_eq_append l x id hxl, keys_append_single]
      have hfresh' : ∀ k ∈ rest, k ∉ JsMap.keys l' := by
        intro k hk
        rw [hkeysl']
        intro hmem
        rcases List.mem_append.mp hmem with hm | hm
        · exact hfresh k (List.mem_cons_of_mem x hk) hm
        · rw [List.mem_singleton] at hm
          exact hnd.1 (hm ▸ hk)
      rw [ih l' s' st' lm st hnd.2 hfresh' h, hkeysl', List.append_assoc]
      rfl

end GetLockfile

theorem sorted_keys_eq (p1 p2 : JsMap Manifest)
    (h1 : (JsMap.keys p1).Nodup) (h2 : (JsMap.keys p2).Nodup)
    (hpt : ∀ k, JsMap.get p1 k = JsMap.get p2 k) :
    List.insertionSort sortAlpha (JsMap.keys p1) =
      List.insertionSort sortAlpha (JsMap.keys p2) := by
  have hmem : ∀ a, a ∈ JsMap.keys p1 ↔ a ∈ JsMap.keys p2 := by
    intro a
    constructor
    · intro ha
      by_contra hb
      have := (JsMap.get_eq_none_iff p2 a).mpr hb
      rw [← hpt a] at this
      exact (JsMap.get_eq_none_iff p1 a).mp this ha
    · intro ha
      by_contra hb
      have := (JsMap.get_eq_none_iff p1 a).mpr hb
      rw [hpt a] at this
      exact (JsMap.get_eq_none_iff p2 a).mp this ha
  have hperm : List.Perm (JsMap.keys p1) (JsMap.keys p2) :=
    (List.perm_ext_iff_of_nodup h1 h2).mpr hmem
  exact List.eq_of_perm_of_sorted
    ((List.perm_insertionSort _ _).trans
      (hperm.trans (List.perm_insertionSort _ _).symm))
    (List.sorted_insertionSort _ _) (List.sorted_insertionSort _ _)

/-- C2: `getLockfile` is deterministic and insertion-order independent — two
pattern→manifest maps equal as mappings give identical results; the emitted
lockfile's keys are the alphabetically sorted input patterns; and any two
patterns sharing a non-null remote key are mapped to one shared entry, owned
by the alphabetically first pattern carrying that key (the stored entry is
the imploded entry of that owner, up to the later `name` back-fill). -/
theorem getLockfile_spec (refs : List PackageRef) :
    (∀ p1 p2 : JsMap Manifest, (JsMap.keys p1).Nodup →
      (JsMap.keys p2).Nodup → (∀ k, JsMap.get p1 k = JsMap.get p2 k) →
      getLockfile refs p1 = getLockfile refs p2) ∧
    (∀ (pm : JsMap Manifest) (lm : JsMap Nat) (st : List MinimalLockManifest),
      (JsMap.keys pm).Nodup → getLockfile refs pm = some (lm, st) →
      JsMap.keys lm = List.insertionSort sortAlpha (JsMap.keys pm)) ∧
    (∀ (pm : JsMap Manifest) (lm : JsMap Nat) (st : List MinimalLockManifest),
      (JsMap.keys pm).Nodup → getLockfile refs pm = some (lm, st) →
      ∀ (a b k : String), a ∈ JsMap.keys pm → b ∈ JsMap.keys pm →
        remoteKeyOf (fun q => JsMap.get pm q) a = some k →
        remoteKeyOf (fun q => JsMap.get pm q) b = some k →
        JsMap.get lm a = JsMap.get lm b ∧
        (∃ c id, c ∈ JsMap.keys pm ∧
          remoteKeyOf (fun q => JsMap.get pm q) c = some k ∧
          (∀ b' ∈ JsMap.keys pm,
            remoteKeyOf (fun q => JsMap.get pm q) b' = some k → c ≤ b') ∧
          JsMap.get lm a = some id ∧ JsMap.get lm c = some id ∧
          ∃ e obj, st[id]? = some e ∧
            getLockfileEntryOf refs (fun q => JsMap.get pm q) c = some obj ∧
            GetLockfile.eqExceptName obj e)) := by
  refine ⟨?_, ?_, ?_⟩
  · intro p1 p2 h1 h2 hpt
    unfold getLockfile
    rw [sorted_keys_eq p1 p2 h1 h2 hpt]
    exact GetLockfile.go_congr refs (fun k => JsMap.get p1 k)
      (fun k => JsMap.get p2 k) _ [] [] [] (fun k _ => hpt k)
  · intro pm lm st hnd h
    have hsortnd : (List.insertionSort sortAlpha (JsMap.keys pm)).Nodup :=
      (List.perm_insertionSort sortAlpha (JsMap.keys pm)).nodup_iff.mpr hnd
    have := GetLockfile.go_keys refs (fun k => JsMap.get pm k)
      (List.insertionSort sortAlpha (JsMap.keys pm)) [] [] [] lm st hsortnd
      (by intro k _ hk; cases hk) h
    simpa using this
  · intro pm lm st hnd h a b k ha hb hrka hrkb
    have hsortnd : (List.insertionSort sortAlpha (JsMap.keys pm)).Nodup :=
      (List.perm_insertionSort sortAlpha (JsMap.keys pm)).nodup_iff.mpr hnd
    have hsorted : List.Sorted (fun x y : String => x ≤ y)
        (List.insertionSort sortAlpha (JsMap.keys pm)) :=
      List.sorted_insertionSort _ _
    have hmem : ∀ q, q ∈ List.insertionSort sortAlpha (JsMap.keys pm) ↔
        q ∈ JsMap.keys pm := fun q => List.mem_insertionSort _
    obtain ⟨ca, ida, hca, hcark, hcamin, hlmca, hlma, hstorea⟩ :=
      GetLockfile.go_creates refs (fun q => JsMap.get pm q) _ hsorted hsortnd
        [] [] [] lm st h a ((hmem a).mpr ha) k hrka rfl
    obtain ⟨cb, idb, hcb, hcbrk, hcbmin, hlmcb, hlmb, hstoreb⟩ :=
      GetLockfile.go_creates refs (fun q => JsMap.get pm q) _ hsorted hsortnd
        [] [] [] lm st h b ((hmem b).mpr hb) k hrkb rfl
    have hcab : ca = cb :=
      le_antisymm (hcamin cb hcb hcbrk) (hcbmin ca hca hcark)
    have hids : ida = idb := by
      rw [hcab] at hlmca
      rw [hlmca] at hlmcb
      injection hlmcb
    constructor
    · rw [hlma, hlmb, hids]
    · refine ⟨ca, ida, (hmem ca).mp hca, hcark, ?_, hlma, hlmca, hstorea⟩
      intro b' hb' hrkb'
      exact hcamin b' ((hmem b').mpr hb') hrkb'

/-- C2 witness: two concrete two-pattern maps that differ only in insertion
order produce the same lockfile, via `getLockfile_spec`. -/
theorem getLockfile_spec_witness :
    getLockfile []
        [("b@^1.0.0", { name := "b", version := "1.0.0" }),
          ("a@^1.0.0", { name := "a", version := "1.0.0" })] =
      getLockfile []
        [("a@^1.0.0", { name := "a", version := "1.0.0" }),
          ("b@^1.0.0", { name := "b", version := "1.0.0" })] := by
  apply (getLockfile_spec []).1 _ _ (by decide) (by decide)
  intro k
  rw [JsMap.get_cons, JsMap.get_cons, JsMap.get_cons, JsMap.get_cons]
  by_cases hb : "b@^1.0.0" = k
  · rw [if_pos hb, if_neg (fun ha => absurd (ha.trans hb.symm) (by decide)),
      if_pos hb]
  · rw [if_neg hb]
    by_cases ha : "a@^1.0.0" = k
    · rw [if_pos ha, if_pos ha]
    · rw [if_neg ha, if_neg ha, if_neg hb]

/-! ## `resolveWorkspaces` (src/unnamed/part_000, `Config`)

The glob expansion, the path functions (`path.join`, `path.dirname`) and the
manifest reader (`this.findManifest`) are external (filesystem / node
built-ins); they enter as parameters.  The embedding covers the per-file
loop (lines 985–1018): duplicate files from the glob union are dropped
(`new Set(...)`), manifests without a truthy `name` or `version` are warned
about and skipped (`continue`), a duplicate workspace name throws a
`MessageError`, and every surviving manifest is recorded under its name. -/

/-- The manifest fields `resolveWorkspaces` checks. -/
structure WsManifest where
  name : Option String := none
  version : Option String := none
  deriving DecidableEq

/-- `new Set([].concat(...files))`: deduplicate keeping first occurrences. -/
def jsSetDedup (l : List String) : List String :=
  l.foldl (fun acc x => if x ∈ acc then acc else acc ++ [x]) []

def resolveWorkspacesGo (join : String → String → String)
    (dirname : String → String) (root : String)
    (findManifest : String → Option WsManifest) :
    List String → JsMap (String × WsManifest) → List String →
      Except String (JsMap (String × WsManifest) × List String)
  | [], workspaces, warnings => .ok (workspaces, warnings)
  | file :: rest, workspaces, warnings =>
    let loc := join root (dirname file)
    match findManifest loc with
    | none => resolveWorkspacesGo join dirname root findManifest rest
        workspaces warnings
    | some manifest =>
      if ¬ jsTruthyStr manifest.name = true then
        -- `this.reporter.warn(... 'workspaceNameMandatory' ...); continue`
        resolveWorkspacesGo join dirname root findManifest rest workspaces
          (warnings ++ ["workspaceNameMandatory:" ++ loc])
      else if ¬ jsTruthyStr manifest.version = true then
        -- `this.reporter.warn(... 'workspaceVersionMandatory' ...); continue`
        resolveWorkspacesGo join dirname root findManifest rest workspaces
          (warnings ++ ["workspaceVersionMandatory:" ++ loc])
      else if (JsMap.get workspaces (manifest.name.getD "")).isSome then
        -- `throw new MessageError(... 'workspaceNameDuplicate' ...)`
        .error ("workspaceNameDuplicate:" ++ manifest.name.getD "")
      else
        resolveWorkspacesGo join dirname root findManifest rest
          (JsMap.set workspaces (manifest.name.getD "") (loc, manifest))
          warnings

/-- `resolveWorkspaces(root, rootManifest)`: the loop over the deduplicated
glob matches `files`, yielding `{name → {loc, manifest}}` plus the warnings
issued. -/
def resolveWorkspaces (join : String → String → String)
    (dirname : String → String) (root : String)
    (findManifest : String → Option WsManifest) (files : List String) :
    Except String (JsMap (String × WsManifest) × List String) :=
  resolveWorkspacesGo join dirname root findManifest (jsSetDedup files) [] []

/-- The `(name, (loc, manifest))` pairs that pass the name/version checks, in
file order. -/
def validEntries (join : String → String → String)
    (dirname : String → String) (root : String)
    (findManifest : String → Option WsManifest) :
    List String → List (String × String × WsManifest)
  | [] => []
  | file :: rest =>
    let loc := join root (dirname file)
    match findManifest loc with
    | none => validEntries join dirname root findManifest rest
    | some manifest =>
      if ¬ jsTruthyStr manifest.name = true then
        validEntries join dirname root findManifest rest
      else if ¬ jsTruthyStr manifest.version = true then
        validEntries join dirname root findManifest rest
      else
        (manifest.name.getD "", loc, manifest) ::
          validEntries join dirname root findManifest rest

/-- The warnings the loop issues, in file order. -/
def warningsOf (join : String → String → String)
    (dirname : String → String) (root : String)
    (findManifest : String → Option WsManifest) :
    List String → List String
  | [] => []
  | file :: rest =>
    let loc := join root (dirname file)
    match findManifest loc with
    | none => warningsOf join dirname root findManifest rest
    | some manifest =>
      if ¬ jsTruthyStr manifest.name = true then
        ("workspaceNameMandatory:" ++ loc) ::
          warningsOf join dirname root findManifest rest
      else if ¬ jsTruthyStr manifest.version = true then
        ("workspaceVersionMandatory:" ++ loc) ::
          warningsOf join dirname root findManifest rest
      else
        warningsOf join dirname root findManifest rest

theorem foldl_set_preserve {α : Type} :
    ∀ (entries : List (String × α)) (ws : JsMap α) (q : String),
      q ∉ entries.map Prod.fst →
      JsMap.get (entries.foldl (fun acc e => JsMap.set acc e.1 e.2) ws) q =
        JsMap.get ws q := by
  intro entries
  induction entries with
  | nil => intro ws q _; rfl
  | cons e rest ih =>
    intro ws q hq
    rw [List.map_cons, List.mem_cons] at hq
    push_neg at hq
    rw [List.foldl_cons, ih (JsMap.set ws e.1 e.2) q hq.2,
      JsMap.get_set_ne ws e.1 q e.2 hq.1]

theorem foldl_set_get {α : Type} :
    ∀ (entries : List (String × α)) (ws : JsMap α),
      (entries.map Prod.fst).Nodup →
      (∀ e ∈ entries, e.1 ∉ JsMap.keys ws) →
      ∀ e ∈ entries,
        JsMap.get (entries.foldl (fun acc e => JsMap.set acc e.1 e.2) ws) e.1 =
          some e.2 := by
  intro entries
  induction entries with
  | nil => intro ws _ _ e he; cases he
  | cons x rest ih =>
    intro ws hnd hdisj e he
    rw [List.map_cons, List.nodup_cons] at hnd
    have hxfresh : x.1 ∉ JsMap.keys ws := hdisj x (List.mem_cons_self x rest)
    have hkeys' : JsMap.keys (JsMap.set ws x.1 x.2) = JsMap.keys ws ++ [x.1] := by
      rw [GetLockfile.set_eq_append ws x.1 x.2 hxfresh,
        GetLockfile.keys_append_single]
    rcases List.mem_cons.mp he with hex | her
    · subst hex
      rw [List.foldl_cons,
        foldl_set_preserve rest (JsMap.set ws e.1 e.2) e.1 hnd.1,
        JsMap.get_set_self]
    · rw [List.foldl_cons]
      apply ih (JsMap.set ws x.1 x.2) hnd.2 _ e her
      intro e' he'
      rw [hkeys']
      intro hmem
      rcases List.mem_append.mp hmem with hm | hm
      · exact hdisj e' (List.mem_cons_of_mem x he') hm
      · rw [List.mem_singleton] at hm
        exact hnd.1 (hm ▸ (List.mem_map.mpr ⟨e', he', rfl⟩))

theorem resolveWorkspacesGo_ok (join : String → String → String)
    (dirname : String → String) (root : String)
    (fm : String → Option WsManifest) :
    ∀ (files : List String) (ws : JsMap (String × WsManifest))
      (warns : List String),
      ((validEntries join dirname root fm files).map (fun e => e.1)).Nodup →
      (∀ e ∈ validEntries join dirname root fm files,
        e.1 ∉ JsMap.keys ws) →
      resolveWorkspacesGo join dirname root fm files ws warns =
        .ok ((validEntries join dirname root fm files).foldl
          (fun acc e => JsMap.set acc e.1 e.2) ws,
          warns ++ warningsOf join dirname root fm files) := by
  intro files
  induction files with
  | nil =>
    intro ws warns _ _
    show Except.ok (ws, warns) = _
    rw [show warningsOf join dirname root fm [] = [] from rfl,
      List.append_nil]
    rfl
  | cons file rest ih =>
    intro ws warns hnd hdisj
    have hgo : resolveWorkspacesGo join dirname root fm (file :: rest) ws warns =
        (match fm (join root (dirname file)) with
        | none => resolveWorkspacesGo join dirname root fm rest ws warns
        | some manifest =>
          if ¬ jsTruthyStr manifest.name = true then
            resolveWorkspacesGo join dirname root fm rest ws
              (warns ++ ["workspaceNameMandatory:" ++ join root (dirname file)])
          else if ¬ jsTruthyStr manifest.version = true then
            resolveWorkspacesGo join dirname root fm rest ws
              (warns ++
                ["workspaceVersionMandatory:" ++ join root (dirname file)])
          else if (JsMap.get ws (manifest.name.getD "")).isSome then
            .error ("workspaceNameDuplicate:" ++ manifest.name.getD "")
          else
            resolveWorkspacesGo join dirname root fm rest
              (JsMap.set ws (manifest.name.getD "")
                (join root (dirname file), manifest))
              warns) := rfl
    have hvalid : validEntries join dirname root fm (file :: rest) =
        (match fm (join root (dirname file)) with
        | none => validEntries join dirname root fm rest
        | some manifest =>
          if ¬ jsTruthyStr manifest.name = true then
            validEntries join dirname root fm rest
          else if ¬ jsTruthyStr manifest.version = true then
            validEntries join dirname root fm rest
          else
            (manifest.name.getD "", join root (dirname file), manifest) ::
              validEntries join dirname root fm rest) := rfl
    have hwarn : warningsOf join dirname root fm (file :: rest) =
        (match fm (join root (dirname file)) with
        | none => warningsOf join dirname root fm rest
        | some manifest =>
          if ¬ jsTruthyStr manifest.name = true then
            ("workspaceNameMandatory:" ++ join root (dirname file)) ::
              warningsOf join dirname root fm rest
          else if ¬ jsTruthyStr manifest.version = true then
            ("workspaceVersionMandatory:" ++ join root (dirname file)) ::
              warningsOf join dirname root fm rest
          else
            warningsOf join dirname root fm rest) := rfl
    rw [hvalid] at hnd hdisj
    rw [hgo, hvalid, hwarn]
    cases hfm : fm (join root (dirname file)) with
    | none =>
      rw [hfm] at hnd hdisj
      simp only [] at hnd hdisj ⊢
      exact ih ws warns hnd hdisj
    | some m =>
      rw [hfm] at hnd hdisj
      simp only [] at hnd hdisj ⊢
      by_cases hname : ¬ jsTruthyStr m.name = true
      · rw [if_pos hname] at hnd hdisj
        repeat rw [if_pos hname]
        rw [ih ws (warns ++ ["workspaceNameMandatory:" ++
          join root (dirname file)]) hnd hdisj, List.append_assoc]
        rfl
      · rw [if_neg hname] at hnd hdisj
        repeat rw [if_neg hname]
        by_cases hver : ¬ jsTruthyStr m.version = true
        · rw [if_pos hver] at hnd hdisj
          repeat rw [if_pos hver]
          rw [ih ws (warns ++ ["workspaceVersionMandatory:" ++
            join root (dirname file)]) hnd hdisj, List.append_assoc]
          rfl
        · rw [if_neg hver] at hnd hdisj
          repeat rw [if_neg hver]
          have hhead : ((m.name.getD "", join root (dirname file), m) :
              String × String × WsManifest) ∈
              (m.name.getD "", join root (dirname file), m) ::
                validEntries join dirname root fm rest :=
            List.mem_cons_self _ _
          have hfresh : m.name.getD "" ∉ JsMap.keys ws := hdisj _ hhead
          have hnone : JsMap.get ws (m.name.getD "") = none :=
            (JsMap.get_eq_none_iff ws _).mpr hfresh
          rw [if_neg (by rw [hnone]; simp)]
          rw [List.map_cons, List.nodup_cons] at hnd
          have hkeys' : JsMap.keys (JsMap.set ws (m.name.getD "")
              (join root (dirname file), m)) = JsMap.keys ws ++
                [m.name.getD ""] := by
            rw [GetLockfile.set_eq_append ws _ _ hfresh,
              GetLockfile.keys_append_single]
          rw [ih _ warns hnd.2 (by
            intro e' he'
            rw [hkeys']
            intro hmem
            rcases List.mem_append.mp hmem with hm | hm
            · exact hdisj e' (List.mem_cons_of_mem _ he') hm
            · rw [List.mem_singleton] at hm
              exact hnd.1 (hm ▸ (List.mem_map.mpr ⟨e', he', rfl⟩)))]
          rfl

theorem resolveWorkspacesGo_err (join : String → String → String)
    (dirname : String → String) (root : String)
    (fm : String → Option WsManifest) :
    ∀ (files : List String) (ws : JsMap (String × WsManifest))
      (warns : List String),
      (JsMap.keys ws).Nodup →
      ¬ ((JsMap.keys ws ++
        (validEntries join dirname root fm files).map (fun e => e.1)).Nodup) →
      ∃ n, resolveWorkspacesGo join dirname root fm files ws warns =
        .error ("workspaceNameDuplicate:" ++ n) := by
  intro files
  induction files with
  | nil =>
    intro ws warns hwnd hdup
    exact absurd (by
      rw [show validEntries join dirname root fm [] = [] from rfl]
      simpa using hwnd) hdup
  | cons file rest ih =>
    intro ws warns hwnd hdup
    have hgo : resolveWorkspacesGo join dirname root fm (file :: rest) ws warns =
        (match fm (join root (dirname file)) with
        | none => resolveWorkspacesGo join dirname root fm rest ws warns
        | some manifest =>
          if ¬ jsTruthyStr manifest.name = true then
            resolveWorkspacesGo join dirname root fm rest ws
              (warns ++ ["workspaceNameMandatory:" ++ join root (dirname file)])
          else if ¬ jsTruthyStr manifest.version = true then
            resolveWorkspacesGo join dirname root fm rest ws
              (warns ++
                ["workspaceVersionMandatory:" ++ join root (dirname file)])
          else if (JsMap.get ws (manifest.name.getD "")).isSome then
            .error ("workspaceNameDuplicate:" ++ manifest.name.getD "")
          else
            resolveWorkspacesGo join dirname root fm rest
              (JsMap.set ws (manifest.name.getD "")
                (join root (dirname file), manifest))
              warns) := rfl
    have hvalid : validEntries join dirname root fm (file :: rest) =
        (match fm (join root (dirname file)) with
        | none => validEntries join dirname root fm rest
        | some manifest =>
          if ¬ jsTruthyStr manifest.name = true then
            validEntries join dirname root fm rest
          else if ¬ jsTruthyStr manifest.version = true then
            validEntries join dirname root fm rest
          else
            (manifest.name.getD "", join root (dirname file), manifest) ::
              validEntries join dirname root fm rest) := rfl
    rw [hvalid] at hdup
    rw [hgo]
    cases hfm : fm (join root (dirname file)) with
    | none =>
      rw [hfm] at hdup
      simp only [] at hdup ⊢
      exact ih ws warns hwnd hdup
    | some m =>
      rw [hfm] at hdup
      simp only [] at hdup ⊢
      by_cases hname : ¬ jsTruthyStr m.name = true
      · rw [if_pos hname] at hdup
        repeat rw [if_pos hname]
        exact ih ws _ hwnd hdup
      · rw [if_neg hname] at hdup
        repeat rw [if_neg hname]
        by_cases hver : ¬ jsTruthyStr m.version = true
        · rw [if_pos hver] at hdup
          repeat rw [if_pos hver]
          exact ih ws _ hwnd hdup
        · rw [if_neg hver] at hdup
          repeat rw [if_neg hver]
          by_cases hin : (JsMap.get ws (m.name.getD "")).isSome = true
          · rw [if_pos hin]
            exact ⟨m.name.getD "", rfl⟩
          · rw [if_neg hin]
            have hnone : JsMap.get ws (m.name.getD "") = none := by
              cases hg : JsMap.get ws (m.name.getD "") with
              | none => rfl
              | some v => rw [hg] at hin; exact absurd rfl hin
            have hfresh : m.name.getD "" ∉ JsMap.keys ws :=
              (JsMap.get_eq_none_iff ws _).mp hnone
            have hkeys' : JsMap.keys (JsMap.set ws (m.name.getD "")
                (join root (dirname file), m)) = JsMap.keys ws ++
                  [m.name.getD ""] := by
              rw [GetLockfile.set_eq_append ws _ _ hfresh,
                GetLockfile.keys_append_single]
            apply ih _ warns
            · rw [hkeys']
              exact List.Nodup.append hwnd (List.nodup_singleton _) (by
                intro a ha hb
                rw [List.mem_singleton] at hb
                exact hfresh (hb ▸ ha))
            · rw [hkeys', List.append_assoc, List.singleton_append]
              rw [List.map_cons] at hdup
              exact hdup

/-- C5 (counterexample): a glob-matched workspace manifest without a
`version` does not fail `resolveWorkspaces` — the loop warns
(`workspaceVersionMandatory`), skips the entry (`continue`) and returns
`ok`, refuting the claimed user-facing error. -/
theorem resolveWorkspaces_missing_version_cex :
    (fun loc => if loc = "root/w1" then
        some ({ name := some "w1", version := none } : WsManifest)
      else none) ("root" ++ "/" ++ "w1") =
        some { name := some "w1", version := none } ∧
    jsTruthyStr (({ name := some "w1", version := none } : WsManifest).version)
      = false ∧
    resolveWorkspaces (fun r d => r ++ "/" ++ d) (fun _ => "w1") "root"
      (fun loc => if loc = "root/w1" then
        some { name := some "w1", version := none }
      else none)
      ["w1/package.json"] =
      .ok ([], ["workspaceVersionMandatory:root/w1"]) := by
  refine ⟨by decide, rfl, ?_⟩
  rfl

/-- C5 (amended): `resolveWorkspaces` warns about and *skips* glob-matched
manifests missing a truthy `name` or `version` (it does not fail); it fails
with a user-facing `MessageError` exactly when two surviving manifests share
a name; and on success it yields the map from each surviving workspace name
to its location and manifest, together with the warnings. -/
theorem resolveWorkspaces_spec (join : String → String → String)
    (dirname : String → String) (root : String)
    (fm : String → Option WsManifest) (files : List String) :
    (((validEntries join dirname root fm (jsSetDedup files)).map
        (fun e => e.1)).Nodup →
      resolveWorkspaces join dirname root fm files =
        .ok ((validEntries join dirname root fm (jsSetDedup files)).foldl
          (fun acc e => JsMap.set acc e.1 e.2) [],
          warningsOf join dirname root fm (jsSetDedup files)) ∧
      ∀ e ∈ validEntries join dirname root fm (jsSetDedup files),
        ∀ (ws : JsMap (String × WsManifest)) (warns : List String),
          resolveWorkspaces join dirname root fm files = .ok (ws, warns) →
          JsMap.get ws e.1 = some e.2) ∧
    (¬ (((validEntries join dirname root fm (jsSetDedup files)).map
        (fun e => e.1)).Nodup) →
      ∃ n, resolveWorkspaces join dirname root fm files =
        .error ("workspaceNameDuplicate:" ++ n)) := by
  constructor
  · intro hnd
    have hok := resolveWorkspacesGo_ok join dirname root fm
      (jsSetDedup files) [] [] hnd (by intro e _ h; cases h)
    constructor
    · show resolveWorkspacesGo join dirname root fm (jsSetDedup files) [] [] = _
      rw [hok]
      rfl
    · intro e he ws warns hres
      have : resolveWorkspacesGo join dirname root fm (jsSetDedup files) [] []
          = .ok (ws, warns) := hres
      rw [hok] at this
      injection this with this
      injection this with h1 _
      rw [← h1]
      exact foldl_set_get _ [] hnd (by intro e' _ h; cases h) e he
  · intro hnd
    apply resolveWorkspacesGo_err join dirname root fm (jsSetDedup files) [] []
      (by simp [JsMap.keys])
    simpa [JsMap.keys] using hnd

/-- C5 witness: two valid workspaces resolve to the expected map, via
`resolveWorkspaces_spec`. -/
theorem resolveWorkspaces_spec_witness :
    resolveWorkspaces (fun r d => r ++ "/" ++ d) (fun f => f) "root"
      (fun loc =>
        if loc = "root/w1" then
          some ({ name := some "w1", version := some "1.0.0" } : WsManifest)
        else if loc = "root/w2" then
          some { name := some "w2", version := some "1.0.0" }
        else none)
      ["w1", "w2"] =
      .ok ([("w1", ("root/w1", { name := some "w1", version := some "1.0.0" })),
        ("w2", ("root/w2", { name := some "w2", version := some "1.0.0" }))],
        []) := by
  have h := (resolveWorkspaces_spec (fun r d => r ++ "/" ++ d) (fun f => f)
    "root"
    (fun loc =>
      if loc = "root/w1" then
        some ({ name := some "w1", version := some "1.0.0" } : WsManifest)
      else if loc = "root/w2" then
        some { name := some "w2", version := some "1.0.0" }
      else none)
    ["w1", "w2"]).1 (by decide)
  rw [h.1]
  rfl

/-! ## `optimizeResolutions` / `collapsePackageVersions`
(src/src/package-resolver.js, flat mode) -/

/-- `dedupePatterns(patterns)`: keep the first pattern for each distinct
resolved manifest (`seen` is keyed on the `getResolvedPattern` object
identity, i.e. the manifest arena index, `undefined` included). -/
def dedupePatterns (s : ResolverState) (patterns : List String) : List String :=
  (patterns.foldl
    (fun (acc : List String × List (Option Nat)) pattern =>
      let info := JsMap.get s.patterns pattern
      if acc.2.contains info then acc
      else (acc.1 ++ [pattern], acc.2 ++ [info]))
    ([], [])).1

/-- `getAllInfoForPatterns(patterns)`: the distinct resolved manifests, by
identity, in first-seen order. -/
def getAllInfoForPatterns (s : ResolverState) (patterns : List String) :
    List (Option Nat) :=
  (patterns.foldl
    (fun (acc : List (Option Nat) × List (Option Nat)) pattern =>
      let info := JsMap.get s.patterns pattern
      if acc.2.contains info then acc
      else (acc.1 ++ [info], acc.2 ++ [info]))
    ([], [])).1

/-- The filter of `optimizeResolutions`: no live lockfile entry and no
workspace remote (`!this.lockfile.getLocked(pattern) && (!remote ||
remote.type !== 'workspace')`); dereferencing `_remote` of an unresolved
pattern is the modelled failure. -/
def collapseFilter (s : ResolverState) (pattern : String) : Option Bool := do
  let mid ← JsMap.get s.patterns pattern
  let m ← s.manifests[mid]?
  pure (!(getLocked s.lockfile pattern).isSome &&
    (match m.remote with
     | none => true
     | some remote => decide (remote.type ≠ "workspace")))

def collapsablePatternsOf (s : ResolverState) (name : String) :
    Option (List String) :=
  (dedupePatterns s ((JsMap.get s.patternsByPackage name).getD [])).filterM
    (collapseFilter s)

/-- `getAllInfoForPatterns(collapsablePatterns).map(m => m.version)`. -/
def availableVersionsOf (s : ResolverState) (C : List String) :
    Option (List String) :=
  (getAllInfoForPatterns s C).mapM (fun info => do
    let mid ← info
    let m ← s.manifests[mid]?
    pure m.version)

def rangesOf (C : List String) : List String :=
  C.map (fun p => (normalizePattern p).range)

/-- The descending version order of `availableVersions.sort(semver.rcompare)`. -/
abbrev vdesc (E : Semver) (a b : String) : Prop := E.vle b a = true

/-- The reverse-sorted scan of `optimizeResolutions`: the first (hence
highest) version satisfying every range. -/
def bestVersionOf (E : Semver) (versions ranges : List String) :
    Option String :=
  (List.insertionSort (vdesc E) versions).find?
    (fun v => ranges.all (fun r => E.satisfies v r))

/-- The first pattern of the list whose manifest carries the collapse
version (`collapseTo{Pattern,Manifest,Reference}` of
`collapsePackageVersions`); `none` is the source's `invariant` failure. -/
def findCollapseTarget (s : ResolverState) (version : String) :
    List String → Option (String × Nat)
  | [] => none
  | p :: rest => do
    let mid ← JsMap.get s.patterns p
    let m ← s.manifests[mid]?
    if m.version = version then pure (p, mid)
    else findCollapseTarget s version rest

/-- The lockfile-permission copy at the end of
`PackageReference.addPattern`: permissions of the pattern's lockfile entry
are merged into the reference's permission map. -/
def refSetPermissionsFromLockfile (st : ResolverState) (rid : Nat)
    (pattern : String) : ResolverState :=
  match getLocked st.lockfile pattern with
  | some shrunk =>
    match st.refs[rid]? with
    | some r =>
      { st with
        refs := st.refs.set rid
          { r with
            permissions := shrunk.permissions.foldl
              (fun acc e => JsMap.set acc e.1 e.2) r.permissions } }
    | none => st
  | none => st

/-- `PackageReference.addPattern(pattern, manifest)` for the reference with
arena index `rid`: `resolver.addPattern`, push onto the reference's own
`patterns` list, then copy lockfile permissions. -/
def refAddPattern (st : ResolverState) (rid : Nat) (pattern : String)
    (mid : Nat) (manifest : Manifest) : Option ResolverState := do
  let st1 := resolverAddPattern st pattern mid manifest
  let r ← st1.refs[rid]?
  let st2 := { st1 with
    refs := st1.refs.set rid { r with patterns := r.patterns ++ [pattern] } }
  pure (refSetPermissionsFromLockfile st2 rid pattern)

/-- One iteration of the `for (const pattern of patterns)` loop of
`collapsePackageVersions`: skip the collapse target itself; otherwise
capture the pattern's reference's pattern list, `prune()` it (remove each
from the resolver), and re-attach each captured pattern to the target
reference. -/
def collapseStep (tgt : String × Nat) (collapseToRid : Nat)
    (collapseToManifest : Manifest) (st : ResolverState) (pattern : String) :
    Option ResolverState :=
  if pattern = tgt.1 then pure st
  else do
    let mid ← JsMap.get st.patterns pattern
    let m ← st.manifests[mid]?
    let rid ← m.ref
    let r ← st.refs[rid]?
    let refPatterns := r.patterns
    let st1 := refPatterns.foldl removePattern st
    refPatterns.foldlM
      (fun st2 q => refAddPattern st2 collapseToRid q tgt.2 collapseToManifest)
      st1

/-- `collapsePackageVersions(name, version, patterns)` from
`src/src/package-resolver.js`: pick the first pattern whose manifest has the
target version, then run the collapse loop over every pattern. -/
def collapsePackageVersions (s : ResolverState) (name version : String)
    (patterns : List String) : Option ResolverState := do
  let tgt ← findCollapseTarget s version patterns
  let collapseToManifest ← s.manifests[tgt.2]?
  let collapseToRid ← collapseToManifest.ref
  patterns.foldlM (collapseStep tgt collapseToRid collapseToManifest) s

/-- `optimizeResolutions(name)` from `src/src/package-resolver.js`: among
the deduped patterns of the package, keep those with no live lockfile entry
and no workspace remote; with at least two of them, scan the known versions
in descending order and collapse onto the first one satisfying every
pattern's range. -/
def optimizeResolutions (E : Semver) (s : ResolverState) (name : String) :
    Option ResolverState := do
  let patterns := dedupePatterns s ((JsMap.get s.patternsByPackage name).getD [])
  let collapsablePatterns ← patterns.filterM (collapseFilter s)
  if collapsablePatterns.length < 2 then pure s
  else do
    let availableVersions ← availableVersionsOf s collapsablePatterns
    match bestVersionOf E availableVersions (rangesOf collapsablePatterns) with
    | none => pure s
    | some version => collapsePackageVersions s name version collapsablePatterns

/-- The resolver-side well-formedness of one collapsible pattern `p` other
than the target: it resolves to a manifest of this package whose reference
lists exactly patterns resolving to that same manifest, all present under
the package's name, and distinct from the target's manifest and
reference. -/
def GoodPattern (s : ResolverState) (name : String) (tmid ridt : Nat)
    (p : String) : Prop :=
  ∃ mid m rid r,
    JsMap.get s.patterns p = some mid ∧
    s.manifests[mid]? = some m ∧
    m.name = name ∧
    m.ref = some rid ∧
    s.refs[rid]? = some r ∧
    p ∈ r.patterns ∧
    rid ≠ ridt ∧
    mid ≠ tmid ∧
    r.patterns.Nodup ∧
    (∀ q ∈ r.patterns, JsMap.get s.patterns q = some mid) ∧
    (∀ q ∈ r.patterns, ∃ l,
      JsMap.get s.patternsByPackage name = some l ∧ q ∈ l)

theorem findCollapseTarget_spec (s : ResolverState) (v : String) :
    ∀ (l : List String) (p : String) (mid : Nat),
      findCollapseTarget s v l = some (p, mid) →
      p ∈ l ∧ JsMap.get s.patterns p = some mid ∧
        ∃ m, s.manifests[mid]? = some m ∧ m.version = v := by
  intro l
  induction l with
  | nil => intro p mid h; cases h
  | cons x rest ih =>
    intro p mid h
    have hx : findCollapseTarget s v (x :: rest) =
        (JsMap.get s.patterns x).bind (fun mid0 =>
          (s.manifests[mid0]?).bind (fun m =>
            if m.version = v then some (x, mid0)
            else findCollapseTarget s v rest)) := rfl
    rw [hx] at h
    cases hmid : JsMap.get s.patterns x with
    | none =>
      rw [hmid, Option.none_bind] at h
      cases h
    | some mid0 =>
      rw [hmid, Option.some_bind] at h
      cases hm : s.manifests[mid0]? with
      | none =>
        rw [hm, Option.none_bind] at h
        cases h
      | some m =>
        rw [hm, Option.some_bind] at h
        by_cases hv : m.version = v
        · rw [if_pos hv] at h
          injection h with h
          injection h with h1 h2
          rw [← h1, ← h2]
          exact ⟨List.mem_cons_self x rest, hmid, m, hm, hv⟩
        · rw [if_neg hv] at h
          obtain ⟨hmem, hget, hm'⟩ := ih p mid h
          exact ⟨List.mem_cons_of_mem x hmem, hget, hm'⟩

theorem find?_sorted_max (E : Semver)
    (htot : ∀ a b, E.vle a b = true ∨ E.vle b a = true)
    (cond : String → Bool) :
    ∀ (l : List String), List.Sorted (vdesc E) l →
      ∀ v, l.find? cond = some v →
        cond v = true ∧ v ∈ l ∧
          (∀ w ∈ l, cond w = true → E.vle w v = true) := by
  have hrefl : ∀ a, E.vle a a = true := fun a => (htot a a).elim id id
  intro l
  induction l with
  | nil => intro _ v h; cases h
  | cons x xs ih =>
    intro hsorted v h
    obtain ⟨hxle, hsorted'⟩ := List.sorted_cons.mp hsorted
    rw [List.find?] at h
    cases hcx : cond x with
    | true =>
      rw [hcx] at h
      injection h with h
      subst h
      refine ⟨hcx, List.mem_cons_self _ _, fun w hw _ => ?_⟩
      rcases List.mem_cons.mp hw with hwx | hwxs
      · rw [hwx]
        exact hrefl _
      · exact hxle w hwxs
    | false =>
      rw [hcx] at h
      obtain ⟨hcv, hvmem, hmax⟩ := ih hsorted' v h
      refine ⟨hcv, List.mem_cons_of_mem x hvmem, fun w hw hcw => ?_⟩
      rcases List.mem_cons.mp hw with hwx | hwxs
      · rw [hwx] at hcw
        rw [hcw] at hcx
        cases hcx
      · exact hmax w hwxs hcw

theorem bestVersionOf_spec (E : Semver)
    (htot : ∀ a b, E.vle a b = true ∨ E.vle b a = true)
    (htrans : ∀ a b c, E.vle a b = true → E.vle b c = true → E.vle a c = true)
    (versions ranges : List String) :
    ((∃ v ∈ versions, ranges.all (fun r => E.satisfies v r) = true) →
      (bestVersionOf E versions ranges).isSome = true) ∧
    (∀ best, bestVersionOf E versions ranges = some best →
      best ∈ versions ∧ ranges.all (fun r => E.satisfies best r) = true ∧
        ∀ w ∈ versions, ranges.all (fun r => E.satisfies w r) = true →
          E.vle w best = true) := by
  haveI : IsTotal String (vdesc E) := ⟨fun a b => htot b a⟩
  haveI : IsTrans String (vdesc E) :=
    ⟨fun a b c h1 h2 => htrans c b a h2 h1⟩
  constructor
  · rintro ⟨v, hv, hsat⟩
    unfold bestVersionOf
    rw [List.find?_isSome]
    exact ⟨v, (List.mem_insertionSort (vdesc E)).mpr hv, hsat⟩
  · intro best h
    obtain ⟨hc, hmem, hmax⟩ := find?_sorted_max E htot _
      (List.insertionSort (vdesc E) versions)
      (List.sorted_insertionSort (vdesc E) versions) best h
    refine ⟨(List.mem_insertionSort (vdesc E)).mp hmem, hc, fun w hw hcw => ?_⟩
    exact hmax w ((List.mem_insertionSort (vdesc E)).mpr hw) hcw

theorem prune_effects (nm : String) :
    ∀ (toRemove : List String) (st : ResolverState) (mid : Nat) (m : Manifest),
      toRemove.Nodup →
      st.manifests[mid]? = some m →
      m.name = nm →
      (∀ q ∈ toRemove, JsMap.get st.patterns q = some mid) →
      (∀ q ∈ toRemove, ∃ l,
        JsMap.get st.patternsByPackage nm = some l ∧ q ∈ l) →
      ((toRemove.foldl removePattern st).manifests = st.manifests ∧
       (toRemove.foldl removePattern st).refs = st.refs ∧
       (toRemove.foldl removePattern st).fetchingPatterns =
         st.fetchingPatterns ∧
       (toRemove.foldl removePattern st).lockfile = st.lockfile ∧
       (∀ q ∈ toRemove,
         JsMap.get (toRemove.foldl removePattern st).patterns q = none) ∧
       (∀ x, x ∉ toRemove →
         JsMap.get (toRemove.foldl removePattern st).patterns x =
           JsMap.get st.patterns x) ∧
       (∀ k, k ≠ nm →
         JsMap.get (toRemove.foldl removePattern st).patternsByPackage k =
           JsMap.get st.patternsByPackage k) ∧
       (∀ x, x ∉ toRemove →
         x ∈ (JsMap.get st.patternsByPackage nm).getD [] →
         x ∈ (JsMap.get
           (toRemove.foldl removePattern st).patternsByPackage nm).getD [])) := by
  intro toRemove
  induction toRemove with
  | nil =>
    intro st mid m _ _ _ _ _
    refine ⟨rfl, rfl, rfl, rfl, ?_, ?_, ?_, ?_⟩
    · intro q hq
      cases hq
    · intro x _
      rfl
    · intro k _
      rfl
    · intro x _ hx
      exact hx
  | cons q qs ih =>
    intro st mid m hnd hm hmn hget hby
    rw [List.nodup_cons] at hnd
    obtain ⟨l, hl, hql⟩ := hby q (List.mem_cons_self q qs)
    have hqget : JsMap.get st.patterns q = some mid :=
      hget q (List.mem_cons_self q qs)
    have hbyname : JsMap.get st.patternsByPackage m.name = some l := by
      rw [hmn]
      exact hl
    have hrem := removePattern_eq st q mid m l hqget hm hbyname
    have hsplice : jsSpliceIndexOf l q = l.erase q := by
      unfold jsSpliceIndexOf
      rw [if_pos hql]
    set st' : ResolverState :=
      { st with
        patterns := JsMap.del st.patterns q
        patternsByPackage :=
          JsMap.set st.patternsByPackage m.name (jsSpliceIndexOf l q) }
      with hst'
    have hfold : (q :: qs).foldl removePattern st = qs.foldl removePattern st' := by
      rw [List.foldl_cons, hrem]
    have hpbp' : JsMap.get st'.patternsByPackage nm = some (l.erase q) := by
      rw [hst']
      show JsMap.get (JsMap.set st.patternsByPackage m.name
        (jsSpliceIndexOf l q)) nm = some (l.erase q)
      rw [hmn, JsMap.get_set_self, hsplice]
    have hih := ih st' mid m hnd.2 hm hmn
      (by
        intro q' hq'
        show JsMap.get (JsMap.del st.patterns q) q' = some mid
        rw [JsMap.get_del_ne st.patterns q q'
          (fun hc => hnd.1 (by rw [← hc]; exact hq'))]
        exact hget q' (List.mem_cons_of_mem q hq'))
      (by
        intro q' hq'
        refine ⟨l.erase q, hpbp', ?_⟩
        obtain ⟨l2, hl2, hq'l2⟩ := hby q' (List.mem_cons_of_mem q hq')
        rw [hl] at hl2
        injection hl2 with hl2
        refine (List.mem_erase_of_ne
          (fun hc => hnd.1 (by rw [← hc]; exact hq'))).mpr ?_
        rw [hl2]
        exact hq'l2)
    rw [hfold]
    obtain ⟨e1, e2, e3, e4, e5, e6, e7, e8⟩ := hih
    refine ⟨e1, e2, e3, e4, ?_, ?_, ?_, ?_⟩
    · intro x hx
      rcases List.mem_cons.mp hx with hxq | hxqs
      · subst hxq
        rw [e6 x hnd.1]
        exact JsMap.get_del_self st.patterns x
      · exact e5 x hxqs
    · intro x hx
      rw [List.mem_cons] at hx
      push_neg at hx
      rw [e6 x hx.2]
      exact JsMap.get_del_ne st.patterns q x hx.1
    · intro k hk
      rw [e7 k hk]
      show JsMap.get (JsMap.set st.patternsByPackage m.name
        (jsSpliceIndexOf l q)) k = _
      rw [hmn, JsMap.get_set_ne st.patternsByPackage nm k _ hk]
    · intro x hx hxl
      rw [List.mem_cons] at hx
      push_neg at hx
      apply e8 x hx.2
      rw [hpbp']
      rw [hl] at hxl
      exact (List.mem_erase_of_ne hx.1).mpr hxl

theorem refSetPerms_frame (st : ResolverState) (rid : Nat) (pattern : String) :
    (refSetPermissionsFromLockfile st rid pattern).manifests = st.manifests ∧
    (refSetPermissionsFromLockfile st rid pattern).patterns = st.patterns ∧
    (refSetPermissionsFromLockfile st rid pattern).patternsByPackage =
      st.patternsByPackage ∧
    (refSetPermissionsFromLockfile st rid pattern).lockfile = st.lockfile ∧
    (refSetPermissionsFromLockfile st rid pattern).fetchingPatterns =
      st.fetchingPatterns ∧
    (∀ rid2, rid2 ≠ rid →
      (refSetPermissionsFromLockfile st rid pattern).refs[rid2]? =
        st.refs[rid2]?) ∧
    ((refSetPermissionsFromLockfile st rid pattern).refs[rid]?).isSome =
      (st.refs[rid]?).isSome := by
  unfold refSetPermissionsFromLockfile
  cases hlk : getLocked st.lockfile pattern with
  | none => exact ⟨rfl, rfl, rfl, rfl, rfl, fun _ _ => rfl, rfl⟩
  | some shrunk =>
    cases hr : st.refs[rid]? with
    | none =>
      refine ⟨rfl, rfl, rfl, rfl, rfl, fun _ _ => rfl, ?_⟩
      show ((st.refs[rid]?).isSome) = (none : Option PackageRef).isSome
      rw [hr]
    | some r =>
      refine ⟨rfl, rfl, rfl, rfl, rfl, ?_, ?_⟩
      · intro rid2 h2
        show (st.refs.set rid _)[rid2]? = st.refs[rid2]?
        exact List.getElem?_set_ne (fun hc => h2 hc.symm)
      · show ((st.refs.set rid _)[rid]?).isSome = (some r).isSome
        rw [List.getElem?_set_eq_of_lt _
          (GetLockfile.lt_length_of_getElem?_some st.refs rid r hr)]
        rfl

theorem refAddPattern_effects (st : ResolverState) (rid : Nat)
    (pattern : String) (mid : Nat) (manifest : Manifest) (rt : PackageRef)
    (hrt : st.refs[rid]? = some rt) :
    ∃ st', refAddPattern st rid pattern mid manifest = some st' ∧
      st'.manifests = st.manifests ∧
      st'.lockfile = st.lockfile ∧
      st'.fetchingPatterns = st.fetchingPatterns ∧
      st'.patterns = JsMap.set st.patterns pattern mid ∧
      (∀ k, k ≠ manifest.name →
        JsMap.get st'.patternsByPackage k = JsMap.get st.patternsByPackage k) ∧
      (∃ l', JsMap.get st'.patternsByPackage manifest.name = some l' ∧
        (∀ x, x ∈ (JsMap.get st.patternsByPackage manifest.name).getD [] →
          x ∈ l') ∧ pattern ∈ l') ∧
      (st'.refs[rid]?).isSome = true ∧
      (∀ rid2, rid2 ≠ rid → st'.refs[rid2]? = st.refs[rid2]?) := by
  have h1 : refAddPattern st rid pattern mid manifest =
      (st.refs[rid]?).bind (fun r =>
        some (refSetPermissionsFromLockfile
          { resolverAddPattern st pattern mid manifest with
            refs := st.refs.set rid
              { r with patterns := r.patterns ++ [pattern] } }
          rid pattern)) := rfl
  rw [h1, hrt, Option.some_bind]
  obtain ⟨f1, f2, f3, f4, f5, f6, f7⟩ := refSetPerms_frame
    { resolverAddPattern st pattern mid manifest with
      refs := st.refs.set rid { rt with patterns := rt.patterns ++ [pattern] } }
    rid pattern
  refine ⟨_, rfl, ?_, ?_, ?_, ?_, ?_, ?_, ?_, ?_⟩
  · rw [f1]
    rfl
  · rw [f4]
    rfl
  · rw [f5]
    rfl
  · rw [f2]
    rfl
  · intro k hk
    rw [f3]
    show JsMap.get (JsMap.set st.patternsByPackage manifest.name
      (if pattern ∈ (JsMap.get st.patternsByPackage manifest.name).getD []
       then (JsMap.get st.patternsByPackage manifest.name).getD []
       else (JsMap.get st.patternsByPackage manifest.name).getD []
         ++ [pattern])) k = JsMap.get st.patternsByPackage k
    exact JsMap.get_set_ne _ _ _ _ hk
  · rw [f3]
    refine ⟨(if pattern ∈ (JsMap.get st.patternsByPackage manifest.name).getD []
       then (JsMap.get st.patternsByPackage manifest.name).getD []
       else (JsMap.get st.patternsByPackage manifest.name).getD []
         ++ [pattern]), ?_, ?_, ?_⟩
    · show JsMap.get (JsMap.set st.patternsByPackage manifest.name
        (if pattern ∈ (JsMap.get st.patternsByPackage manifest.name).getD []
         then (JsMap.get st.patternsByPackage manifest.name).getD []
         else (JsMap.get st.patternsByPackage manifest.name).getD []
           ++ [pattern])) manifest.name = _
      exact JsMap.get_set_self _ _ _
    · intro x hx
      by_cases hp : pattern ∈
          (JsMap.get st.patternsByPackage manifest.name).getD []
      · rw [if_pos hp]
        exact hx
      · rw [if_neg hp]
        exact List.mem_append_left _ hx
    · by_cases hp : pattern ∈
          (JsMap.get st.patternsByPackage manifest.name).getD []
      · rw [if_pos hp]
        exact hp
      · rw [if_neg hp]
        exact List.mem_append_right _ (List.mem_cons_self _ _)
  · rw [f7]
    show ((st.refs.set rid
      { rt with patterns := rt.patterns ++ [pattern] })[rid]?).isSome = true
    rw [List.getElem?_set_eq_of_lt _
      (GetLockfile.lt_length_of_getElem?_some st.refs rid rt hrt)]
    rfl
  · intro rid2 h2
    rw [f6 rid2 h2]
    show (st.refs.set rid
      { rt with patterns := rt.patterns ++ [pattern] })[rid2]? = st.refs[rid2]?
    exact List.getElem?_set_ne (fun hc => h2 hc.symm)

theorem attach_effects (ridt tmid : Nat) (tm : Manifest) :
    ∀ (toAdd : List String) (st : ResolverState),
      (st.refs[ridt]?).isSome = true →
      ∃ s2,
        toAdd.foldlM
          (fun st2 q => refAddPattern st2 ridt q tmid tm) st = some s2 ∧
        s2.manifests = st.manifests ∧
        s2.lockfile = st.lockfile ∧
        s2.fetchingPatterns = st.fetchingPatterns ∧
        (s2.refs[ridt]?).isSome = true ∧
        (∀ rid2, rid2 ≠ ridt → s2.refs[rid2]? = st.refs[rid2]?) ∧
        (∀ q ∈ toAdd, JsMap.get s2.patterns q = some tmid) ∧
        (∀ x, x ∉ toAdd → JsMap.get s2.patterns x = JsMap.get st.patterns x) ∧
        (∀ k, k ≠ tm.name →
          JsMap.get s2.patternsByPackage k = JsMap.get st.patternsByPackage k) ∧
        (∀ x, x ∈ (JsMap.get st.patternsByPackage tm.name).getD [] →
          x ∈ (JsMap.get s2.patternsByPackage tm.name).getD []) := by
  intro toAdd
  induction toAdd with
  | nil =>
    intro st hrt
    refine ⟨st, rfl, rfl, rfl, rfl, hrt, fun _ _ => rfl, ?_, fun _ _ => rfl,
      fun _ _ => rfl, fun _ hx => hx⟩
    intro q hq
    cases hq
  | cons q qs ih =>
    intro st hrt
    obtain ⟨rt, hrtv⟩ := Option.isSome_iff_exists.mp hrt
    obtain ⟨st1, hea, hman, hlock, hfetch, hpats, hpbpne, hpbpname,
      hrefsome, hrefne⟩ := refAddPattern_effects st ridt q tmid tm rt hrtv
    have hfold : List.foldlM
        (fun st2 q' => refAddPattern st2 ridt q' tmid tm) st (q :: qs) =
        List.foldlM (fun st2 q' => refAddPattern st2 ridt q' tmid tm) st1 qs := by
      rw [show List.foldlM
        (fun st2 q' => refAddPattern st2 ridt q' tmid tm) st (q :: qs) =
        (refAddPattern st ridt q tmid tm).bind
          (fun b => List.foldlM
            (fun st2 q' => refAddPattern st2 ridt q' tmid tm) b qs) from rfl,
        hea, Option.some_bind]
    obtain ⟨s2, heq2, k1, k2, k3, k4, k5, k6, k7, k8, k9⟩ := ih st1 hrefsome
    rw [hfold]
    refine ⟨s2, heq2, k1.trans hman, k2.trans hlock, k3.trans hfetch, k4,
      ?_, ?_, ?_, ?_, ?_⟩
    · intro rid2 h2
      exact (k5 rid2 h2).trans (hrefne rid2 h2)
    · intro x hx
      rcases List.mem_cons.mp hx with hxq | hxqs
      · subst hxq
        by_cases hxqs : x ∈ qs
        · exact k6 x hxqs
        · rw [k7 x hxqs, hpats]
          exact JsMap.get_set_self _ _ _
      · exact k6 x hxqs
    · intro x hx
      rw [List.mem_cons] at hx
      push_neg at hx
      rw [k7 x hx.2, hpats]
      exact JsMap.get_set_ne _ _ _ _ hx.1
    · intro k hk
      rw [k8 k hk]
      exact hpbpne k hk
    · intro x hx
      obtain ⟨l', hl', hsub, _⟩ := hpbpname
      apply k9 x
      rw [hl']
      exact hsub x hx

/-- The resolver-side well-formedness of a collapsible pattern before the
collapse: it resolves to a manifest of the package carrying a reference
that lists exactly patterns resolving to that manifest, all present under
the package's name. -/
def WfPattern (s : ResolverState) (name : String) (p : String) : Prop :=
  ∃ mid m rid r,
    JsMap.get s.patterns p = some mid ∧
    s.manifests[mid]? = some m ∧
    m.name = name ∧
    m.ref = some rid ∧
    s.refs[rid]? = some r ∧
    p ∈ r.patterns ∧
    r.patterns.Nodup ∧
    (∀ q ∈ r.patterns, JsMap.get s.patterns q = some mid) ∧
    (∀ q ∈ r.patterns, ∃ l,
      JsMap.get s.patternsByPackage name = some l ∧ q ∈ l)

theorem mem_getD_nil_iff {x : String} (o : Option (List String)) :
    x ∈ o.getD [] ↔ ∃ l, o = some l ∧ x ∈ l := by
  cases o with
  | none => simp
  | some l => simp

theorem collapse_fold (nm tp : String) (tmid ridt : Nat) (tm : Manifest)
    (htmname : tm.name = nm) :
    ∀ (rem : List String) (st : ResolverState),
      rem.Nodup →
      (st.refs[ridt]?).isSome = true →
      JsMap.get st.patterns tp = some tmid →
      (∀ p ∈ rem, p ≠ tp → GoodPattern st nm tmid ridt p) →
      (∀ p1 ∈ rem, ∀ p2 ∈ rem, p1 ≠ p2 → ∀ m1 m2,
        JsMap.get st.patterns p1 = some m1 →
        JsMap.get st.patterns p2 = some m2 → m1 ≠ m2) →
      ∃ s2, List.foldlM (collapseStep (tp, tmid) ridt tm) st rem = some s2 ∧
        s2.manifests = st.manifests ∧
        (s2.refs[ridt]?).isSome = true ∧
        (∀ x, JsMap.get st.patterns x = some tmid →
          JsMap.get s2.patterns x = some tmid) ∧
        (∀ p ∈ rem, p ≠ tp → JsMap.get s2.patterns p = some tmid) := by
  intro rem
  induction rem with
  | nil =>
    intro st _ hrs _ _ _
    refine ⟨st, rfl, rfl, hrs, fun _ hx => hx, ?_⟩
    intro p hp
    cases hp
  | cons p rest ih =>
    intro st hnd hrs htp hgood hdisj
    rw [List.nodup_cons] at hnd
    have hfoldcons :
        List.foldlM (collapseStep (tp, tmid) ridt tm) st (p :: rest) =
        (collapseStep (tp, tmid) ridt tm st p).bind
          (fun b => List.foldlM (collapseStep (tp, tmid) ridt tm) b rest) := rfl
    by_cases hp : p = tp
    · have hstep : collapseStep (tp, tmid) ridt tm st p = some st := by
        unfold collapseStep
        rw [if_pos hp]
        rfl
      rw [hfoldcons, hstep, Option.some_bind]
      obtain ⟨s2, heq2, j1, j2, j3, j4⟩ := ih st hnd.2 hrs htp
        (fun p' hp' => hgood p' (List.mem_cons_of_mem p hp'))
        (fun p1 h1 p2 h2 => hdisj p1 (List.mem_cons_of_mem p h1) p2
          (List.mem_cons_of_mem p h2))
      refine ⟨s2, heq2, j1, j2, j3, ?_⟩
      intro p' hp' hne
      rcases List.mem_cons.mp hp' with h | h
      · exact absurd (h.trans hp) hne
      · exact j4 p' h hne
    · obtain ⟨mid, m, rid, r, hqp, hqm, hmname, hmref, hqr, hpr, hridne,
        hmidne, hrnd, hall, hpbp⟩ := hgood p (List.mem_cons_self p rest) hp
      have hstep : collapseStep (tp, tmid) ridt tm st p =
          List.foldlM (fun st2 q => refAddPattern st2 ridt q tmid tm)
            (List.foldl removePattern st r.patterns) r.patterns := by
        rw [show collapseStep (tp, tmid) ridt tm st p =
          (if p = tp then some st else
            (JsMap.get st.patterns p).bind (fun mid0 =>
              (st.manifests[mid0]?).bind (fun m0 =>
                (m0.ref).bind (fun rid0 =>
                  (st.refs[rid0]?).bind (fun r0 =>
                    List.foldlM
                      (fun st2 q => refAddPattern st2 ridt q tmid tm)
                      (List.foldl removePattern st r0.patterns)
                      r0.patterns))))) from rfl,
          if_neg hp]
        simp only [hqp, Option.some_bind, hqm, hmref, hqr]
      obtain ⟨e1, e2, e3, e4, e5, e6, e7, e8⟩ :=
        prune_effects nm r.patterns st mid m hrnd hqm hmname hall hpbp
      have hrs1 : (((List.foldl removePattern st r.patterns).refs)[ridt]?).isSome
          = true := by
        rw [e2]
        exact hrs
      obtain ⟨s2, heq2, k1, k2, k3, k4, k5, k6, k7, k8, k9⟩ :=
        attach_effects ridt tmid tm r.patterns
          (List.foldl removePattern st r.patterns) hrs1
      have hB : ∀ x, x ∉ r.patterns →
          JsMap.get s2.patterns x = JsMap.get st.patterns x :=
        fun x hx => (k7 x hx).trans (e6 x hx)
      have htpnot : tp ∉ r.patterns := by
        intro hc
        have h1 := hall tp hc
        rw [htp] at h1
        injection h1 with h1
        exact hmidne h1.symm
      have hkeepTp : JsMap.get s2.patterns tp = some tmid := by
        rw [hB tp htpnot]
        exact htp
      have hpers1 : ∀ x, JsMap.get st.patterns x = some tmid →
          JsMap.get s2.patterns x = some tmid := by
        intro x hx
        have hxnot : x ∉ r.patterns := by
          intro hc
          have h1 := hall x hc
          rw [hx] at h1
          injection h1 with h1
          exact hmidne h1.symm
        rw [hB x hxnot]
        exact hx
      have hgood2 : ∀ p' ∈ rest, p' ≠ tp → GoodPattern s2 nm tmid ridt p' := by
        intro p' hp'mem hp'ne
        obtain ⟨mid', m', rid', r', hqp', hqm', hmname', hmref', hqr', hpr',
          hridne', hmidne', hrnd', hall', hpbp'⟩ :=
          hgood p' (List.mem_cons_of_mem p hp'mem) hp'ne
        have hpne : p ≠ p' := fun hc => hnd.1 (by rw [hc]; exact hp'mem)
        have hmm : mid ≠ mid' := hdisj p (List.mem_cons_self p rest) p'
          (List.mem_cons_of_mem p hp'mem) hpne mid mid' hqp hqp'
        have hdisjq : ∀ q, q ∈ r'.patterns → q ∉ r.patterns := by
          intro q h2 h1
          have a1 := hall q h1
          have a2 := hall' q h2
          rw [a1] at a2
          injection a2 with a2
          exact hmm a2
        refine ⟨mid', m', rid', r', ?_, ?_, hmname', hmref', ?_, hpr',
          hridne', hmidne', hrnd', ?_, ?_⟩
        · rw [hB p' (hdisjq p' hpr')]
          exact hqp'
        · rw [k1.trans e1]
          exact hqm'
        · rw [k5 rid' hridne', e2]
          exact hqr'
        · intro q hq
          rw [hB q (hdisjq q hq)]
          exact hall' q hq
        · intro q hq
          obtain ⟨l, hl, hql⟩ := hpbp' q hq
          have h1 : q ∈ (JsMap.get st.patternsByPackage nm).getD [] := by
            rw [hl]
            exact hql
          have h2 := e8 q (hdisjq q hq) h1
          have h3 := k9 q (by rw [htmname]; exact h2)
          rw [htmname] at h3
          exact (mem_getD_nil_iff _).mp h3
      have hkeep : ∀ y ∈ rest,
          JsMap.get s2.patterns y = JsMap.get st.patterns y := by
        intro y hy
        by_cases hytp : y = tp
        · rw [hytp]
          exact hB tp htpnot
        · obtain ⟨midy, my, ridy, ry, hqpy, _, _, _, _, hpry, _, _, _,
            hally, _⟩ := hgood y (List.mem_cons_of_mem p hy) hytp
          have hpney : p ≠ y := fun hc => hnd.1 (by rw [hc]; exact hy)
          have hmmy : mid ≠ midy := hdisj p (List.mem_cons_self p rest) y
            (List.mem_cons_of_mem p hy) hpney mid midy hqp hqpy
          have hynot : y ∉ r.patterns := by
            intro hc
            have a1 := hall y hc
            rw [hqpy] at a1
            injection a1 with a1
            exact hmmy a1.symm
          exact hB y hynot
      have hdisj2 : ∀ p1 ∈ rest, ∀ p2 ∈ rest, p1 ≠ p2 → ∀ m1 m2,
          JsMap.get s2.patterns p1 = some m1 →
          JsMap.get s2.patterns p2 = some m2 → m1 ≠ m2 := by
        intro p1 h1 p2 h2 hne m1 m2 g1 g2
        rw [hkeep p1 h1] at g1
        rw [hkeep p2 h2] at g2
        exact hdisj p1 (List.mem_cons_of_mem p h1) p2
          (List.mem_cons_of_mem p h2) hne m1 m2 g1 g2
      obtain ⟨s3, heq3, j1, j2, j3, j4⟩ := ih s2 hnd.2 k4 hkeepTp hgood2 hdisj2
      rw [hfoldcons, hstep, heq2, Option.some_bind]
      refine ⟨s3, heq3, ?_, j2, ?_, ?_⟩
      · rw [j1, k1, e1]
      · intro x hx
        exact j3 x (hpers1 x hx)
      · intro p' hp' hne
        rcases List.mem_cons.mp hp' with h | h
        · rw [h]
          exact j3 p (k6 p hpr)
        · exact j4 p' h hne

theorem getAllInfo_aux (s : ResolverState) :
    ∀ (l : List String) (acc : List (Option Nat) × List (Option Nat)),
      ∀ x ∈ (l.foldl
        (fun (acc : List (Option Nat) × List (Option Nat)) pattern =>
          let info := JsMap.get s.patterns pattern
          if acc.2.contains info then acc
          else (acc.1 ++ [info], acc.2 ++ [info])) acc).1,
        x ∈ acc.1 ∨ ∃ p ∈ l, JsMap.get s.patterns p = x := by
  intro l
  induction l with
  | nil =>
    intro acc x hx
    exact Or.inl hx
  | cons p rest ih =>
    intro acc x hx
    rw [List.foldl_cons] at hx
    rcases ih _ x hx with hacc | ⟨p', hp', hgp'⟩
    · by_cases hc : acc.2.contains (JsMap.get s.patterns p)
      · rw [if_pos hc] at hacc
        exact Or.inl hacc
      · rw [if_neg hc] at hacc
        rcases List.mem_append.mp hacc with h1 | h1
        · exact Or.inl h1
        · rcases List.mem_cons.mp h1 with h2 | h2
          · exact Or.inr ⟨p, List.mem_cons_self p rest, h2.symm⟩
          · cases h2
    · exact Or.inr ⟨p', List.mem_cons_of_mem p hp', hgp'⟩

theorem getAllInfo_mem (s : ResolverState) (l : List String) :
    ∀ x ∈ getAllInfoForPatterns s l,
      ∃ p ∈ l, JsMap.get s.patterns p = x := by
  intro x hx
  rcases getAllInfo_aux s l ([], []) x hx with h | h
  · cases h
  · exact h

theorem mapM_mem_inv {α β : Type} (g : α → Option β) :
    ∀ (l : List α) (res : List β), l.mapM g = some res →
      ∀ v ∈ res, ∃ x ∈ l, g x = some v := by
  intro l
  induction l with
  | nil =>
    intro res h v hv
    rw [List.mapM_nil] at h
    injection h with h
    rw [← h] at hv
    cases hv
  | cons x xs ih =>
    intro res h v hv
    rw [List.mapM_cons] at h
    cases hgx : g x with
    | none =>
      rw [hgx] at h
      simp only [Option.bind_eq_bind, Option.none_bind] at h
      cases h
    | some b =>
      rw [hgx] at h
      cases hm : xs.mapM g with
      | none =>
        rw [hm] at h
        simp only [Option.bind_eq_bind, Option.some_bind,
          Option.none_bind] at h
        cases h
      | some bs =>
        rw [hm] at h
        simp only [Option.bind_eq_bind, Option.some_bind, Option.pure_def] at h
        injection h with h
        rw [← h] at hv
        rcases List.mem_cons.mp hv with h1 | h1
        · exact ⟨x, List.mem_cons_self x xs, by rw [hgx, h1]⟩
        · obtain ⟨y, hy, hgy⟩ := ih bs hm v h1
          exact ⟨y, List.mem_cons_of_mem x hy, hgy⟩

theorem availableVersions_mem (s : ResolverState) (C versions : List String)
    (h : availableVersionsOf s C = some versions) :
    ∀ v ∈ versions, ∃ p ∈ C, ∃ mid m,
      JsMap.get s.patterns p = some mid ∧ s.manifests[mid]? = some m ∧
        m.version = v := by
  intro v hv
  obtain ⟨info, hinfo, hg⟩ := mapM_mem_inv _ (getAllInfoForPatterns s C)
    versions h v hv
  obtain ⟨p, hp, hgp⟩ := getAllInfo_mem s C info hinfo
  cases info with
  | none =>
    have hg2 : (none : Option String) = some v := hg
    cases hg2
  | some mid =>
    have hg2 : (s.manifests[mid]?).bind (fun m => some m.version) = some v := hg
    cases hm : s.manifests[mid]? with
    | none =>
      rw [hm, Option.none_bind] at hg2
      cases hg2
    | some m =>
      rw [hm, Option.some_bind] at hg2
      injection hg2 with hg2
      exact ⟨p, hp, mid, m, hgp, hm, hg2⟩

theorem findCollapseTarget_isSome (s : ResolverState) (v : String) :
    ∀ (l : List String),
      (∀ p ∈ l, ∃ mid m, JsMap.get s.patterns p = some mid ∧
        s.manifests[mid]? = some m) →
      (∃ p ∈ l, ∃ mid m, JsMap.get s.patterns p = some mid ∧
        s.manifests[mid]? = some m ∧ m.version = v) →
      (findCollapseTarget s v l).isSome = true := by
  intro l
  induction l with
  | nil =>
    rintro _ ⟨p, hp, _⟩
    cases hp
  | cons x rest ih =>
    rintro hall ⟨p, hp, mid, m, hgp, hmp, hvp⟩
    obtain ⟨midx, mx, hgx, hmx⟩ := hall x (List.mem_cons_self x rest)
    have hx : findCollapseTarget s v (x :: rest) =
        (JsMap.get s.patterns x).bind (fun mid0 =>
          (s.manifests[mid0]?).bind (fun m0 =>
            if m0.version = v then some (x, mid0)
            else findCollapseTarget s v rest)) := rfl
    rw [hx, hgx, Option.some_bind, hmx, Option.some_bind]
    by_cases hvx : mx.version = v
    · rw [if_pos hvx]
      rfl
    · rw [if_neg hvx]
      apply ih (fun q hq => hall q (List.mem_cons_of_mem x hq))
      rcases List.mem_cons.mp hp with h1 | h1
      · rw [h1] at hgp
        rw [hgx] at hgp
        injection hgp with hgp
        rw [hgp] at hmx
        rw [hmx] at hmp
        injection hmp with hmp
        rw [← hmp] at hvp
        exact absurd hvp hvx
      · exact ⟨p, h1, mid, m, hgp, hmp, hvp⟩

/-- C3: In flat mode `optimizeResolutions` considers only the collapsible
patterns of the package (those with no live lockfile entry and no workspace
remote); when at least two remain and some already-known version satisfies
every collapsible pattern's range, it succeeds and collapses them onto the
highest such version: afterwards every collapsible pattern resolves to the
single manifest whose version is the chosen one.  Stated over an abstract
total transitive version order, under the resolver's well-formedness of the
patterns' references and distinctness of their manifests. -/
theorem optimizeResolutions_spec (E : Semver) (s : ResolverState)
    (name : String) (C versions : List String)
    (htot : ∀ a b, E.vle a b = true ∨ E.vle b a = true)
    (htrans : ∀ a b c, E.vle a b = true → E.vle b c = true → E.vle a c = true)
    (hC : collapsablePatternsOf s name = some C)
    (hlen : 2 ≤ C.length)
    (hnd : C.Nodup)
    (hvers : availableVersionsOf s C = some versions)
    (hsat : ∃ v ∈ versions,
      (rangesOf C).all (fun rg => E.satisfies v rg) = true)
    (hwf : ∀ p ∈ C, WfPattern s name p)
    (hdisj : ∀ p1 ∈ C, ∀ p2 ∈ C, p1 ≠ p2 → ∀ m1 m2,
      JsMap.get s.patterns p1 = some m1 →
      JsMap.get s.patterns p2 = some m2 → m1 ≠ m2) :
    ∃ best s2,
      bestVersionOf E versions (rangesOf C) = some best ∧
      optimizeResolutions E s name = some s2 ∧
      best ∈ versions ∧
      (rangesOf C).all (fun rg => E.satisfies best rg) = true ∧
      (∀ w ∈ versions,
        (rangesOf C).all (fun rg => E.satisfies w rg) = true →
        E.vle w best = true) ∧
      s2.manifests = s.manifests ∧
      ∃ tmid tm, s.manifests[tmid]? = some tm ∧ tm.version = best ∧
        ∀ p ∈ C, JsMap.get s2.patterns p = some tmid := by
  obtain ⟨hbsome, hbspec⟩ :=
    bestVersionOf_spec E htot htrans versions (rangesOf C)
  obtain ⟨best, hbest⟩ := Option.isSome_iff_exists.mp (hbsome hsat)
  obtain ⟨hbmem, hbsat, hbmax⟩ := hbspec best hbest
  have hallpm : ∀ p ∈ C, ∃ mid m, JsMap.get s.patterns p = some mid ∧
      s.manifests[mid]? = some m := by
    intro p hp
    obtain ⟨mid, m, _, _, h1, h2, _⟩ := hwf p hp
    exact ⟨mid, m, h1, h2⟩
  have hex := availableVersions_mem s C versions hvers best hbmem
  obtain ⟨⟨tp, tmid⟩, htgt⟩ := Option.isSome_iff_exists.mp
    (findCollapseTarget_isSome s best C hallpm hex)
  obtain ⟨htpC, htpget, tm0, htm0, htm0v⟩ :=
    findCollapseTarget_spec s best C tp tmid htgt
  obtain ⟨midt, mt, ridt, rt, hgt, hmt, hmtname, hmtref, hqrt, htprt,
    hrtnd, hallt, hpbpt⟩ := hwf tp htpC
  rw [htpget] at hgt
  injection hgt with hgt
  rw [← hgt] at hmt
  have hmtv : mt.version = best := by
    rw [hmt] at htm0
    injection htm0 with htm0
    rw [htm0]
    exact htm0v
  have hrs : (s.refs[ridt]?).isSome = true := by
    rw [hqrt]
    rfl
  have hgood : ∀ p ∈ C, p ≠ tp → GoodPattern s name tmid ridt p := by
    intro p hp hne
    obtain ⟨mid, m, rid, r, hg, hm, hmname2, hmref2, hqr, hprr, hrnd2,
      hall2, hpbp2⟩ := hwf p hp
    have hmidne : mid ≠ tmid := fun hc =>
      hdisj p hp tp htpC hne mid tmid hg htpget hc
    have hridne : rid ≠ ridt := by
      intro hc
      rw [hc] at hqr
      rw [hqrt] at hqr
      injection hqr with hqr
      have htpin : tp ∈ r.patterns := by
        rw [← hqr]
        exact htprt
      have h2 := hall2 tp htpin
      rw [htpget] at h2
      injection h2 with h2
      exact hmidne h2.symm
    exact ⟨mid, m, rid, r, hg, hm, hmname2, hmref2, hqr, hprr, hridne,
      hmidne, hrnd2, hall2, hpbp2⟩
  obtain ⟨s2, hfold, hman, _, hpers, hpat⟩ :=
    collapse_fold name tp tmid ridt mt hmtname C s hnd hrs htpget hgood hdisj
  have h2 : collapsePackageVersions s name best C =
      (s.manifests[tmid]?).bind (fun ctm =>
        (ctm.ref).bind (fun ridx =>
          List.foldlM (collapseStep (tp, tmid) ridx ctm) s C)) := by
    rw [show collapsePackageVersions s name best C =
      (findCollapseTarget s best C).bind (fun tgt =>
        (s.manifests[tgt.2]?).bind (fun ctm =>
          (ctm.ref).bind (fun ridx =>
            List.foldlM (collapseStep tgt ridx ctm) s C))) from rfl, htgt]
    rfl
  have h3 : collapsePackageVersions s name best C = some s2 := by
    rw [h2]
    simp only [hmt, Option.some_bind, hmtref]
    exact hfold
  have hopt : optimizeResolutions E s name = some s2 := by
    rw [show optimizeResolutions E s name =
      (collapsablePatternsOf s name).bind (fun cps =>
        if cps.length < 2 then some s
        else (availableVersionsOf s cps).bind (fun av =>
          match bestVersionOf E av (rangesOf cps) with
          | none => some s
          | some version =>
            collapsePackageVersions s name version cps)) from rfl, hC]
    simp only [Option.some_bind]
    rw [if_neg (Nat.not_lt.mpr hlen), hvers]
    simp only [Option.some_bind]
    rw [hbest]
    exact h3
  refine ⟨best, s2, hbest, hopt, hbmem, hbsat, hbmax, hman, tmid, mt, hmt,
    hmtv, ?_⟩
  intro p hp
  by_cases hptp : p = tp
  · rw [hptp]
    exact hpers tp htpget
  · exact hpat p hp hptp

/-- Concrete two-pattern flat-mode resolver state for the `C3` witness:
package `c` resolved at versions `1.0.0` and `1.1.0` by two patterns with
separate references, no lockfile. -/
def mwc0 : Manifest := { name := "c", version := "1.0.0", ref := some 0 }

def mwc1 : Manifest := { name := "c", version := "1.1.0", ref := some 1 }

def rwc0 : PackageRef := { patterns := ["c@^1.0.0"] }

def rwc1 : PackageRef := { patterns := ["c@~1.1.0"] }

def swc : ResolverState :=
  { manifests := [mwc0, mwc1]
    refs := [rwc0, rwc1]
    patterns := [("c@^1.0.0", 0), ("c@~1.1.0", 1)]
    patternsByPackage := [("c", ["c@^1.0.0", "c@~1.1.0"])]
    fetchingPatterns := []
    lockfile := ⟨none⟩ }

/-- Degenerate total semver interface for the `C3` witness. -/
def Ewc : Semver :=
  { validRange := fun _ => true
    valid := fun _ => true
    satisfies := fun _ _ => true
    satisfiesCfg := fun _ _ _ => true
    vle := fun _ _ => true }

/-- Witness for `optimizeResolutions_spec` at the concrete state `swc`:
its hypotheses hold and the collapse succeeds. -/
theorem optimizeResolutions_spec_witness :
    collapsablePatternsOf swc "c" = some ["c@^1.0.0", "c@~1.1.0"] ∧
    ∃ best s2,
      bestVersionOf Ewc ["1.0.0", "1.1.0"]
          (rangesOf ["c@^1.0.0", "c@~1.1.0"]) = some best ∧
      optimizeResolutions Ewc swc "c" = some s2 ∧
      best ∈ ["1.0.0", "1.1.0"] ∧
      (rangesOf ["c@^1.0.0", "c@~1.1.0"]).all
        (fun rg => Ewc.satisfies best rg) = true ∧
      (∀ w ∈ ["1.0.0", "1.1.0"],
        (rangesOf ["c@^1.0.0", "c@~1.1.0"]).all
          (fun rg => Ewc.satisfies w rg) = true →
        Ewc.vle w best = true) ∧
      s2.manifests = swc.manifests ∧
      ∃ tmid tm, swc.manifests[tmid]? = some tm ∧ tm.version = best ∧
        ∀ p ∈ ["c@^1.0.0", "c@~1.1.0"],
          JsMap.get s2.patterns p = some tmid :=
  ⟨rfl,
    optimizeResolutions_spec Ewc swc "c"
      ["c@^1.0.0", "c@~1.1.0"] ["1.0.0", "1.1.0"]
      (fun _ _ => Or.inl rfl)
      (fun _ _ _ _ _ => rfl)
      rfl
      (by decide)
      (by decide)
      rfl
      ⟨"1.0.0", by decide, rfl⟩
      (by
        intro p hp
        rcases List.mem_cons.mp hp with h | h
        · rw [h]
          refine ⟨0, mwc0, 0, rwc0, rfl, rfl, rfl, rfl, rfl, ?_, ?_, ?_, ?_⟩
          · exact List.mem_cons_self _ _
          · decide
          · decide
          · intro q hq
            refine ⟨["c@^1.0.0", "c@~1.1.0"], rfl, ?_⟩
            rcases List.mem_cons.mp hq with h2 | h2
            · rw [h2]
              exact List.mem_cons_self _ _
            · cases h2
        · rcases List.mem_cons.mp h with h | h
          · rw [h]
            refine ⟨1, mwc1, 1, rwc1, rfl, rfl, rfl, rfl, rfl, ?_, ?_, ?_, ?_⟩
            · exact List.mem_cons_self _ _
            · decide
            · decide
            · intro q hq
              refine ⟨["c@^1.0.0", "c@~1.1.0"], rfl, ?_⟩
              rcases List.mem_cons.mp hq with h2 | h2
              · rw [h2]
                decide
              · cases h2
          · cases h)
      (by
        intro p1 h1 p2 h2 hne m1 m2 g1 g2
        rcases List.mem_cons.mp h1 with e1 | e1
        · rcases List.mem_cons.mp h2 with e2 | e2
          · exact absurd (e1.trans e2.symm) hne
          · rcases List.mem_cons.mp e2 with e2 | e2
            · rw [e1] at g1
              rw [e2] at g2
              have g1' : (some 0 : Option Nat) = some m1 := g1
              have g2' : (some 1 : Option Nat) = some m2 := g2
              injection g1' with g1'
              injection g2' with g2'
              rw [← g1', ← g2']
              decide
            · cases e2
        · rcases List.mem_cons.mp e1 with e1 | e1
          · rcases List.mem_cons.mp h2 with e2 | e2
            · rw [e1] at g1
              rw [e2] at g2
              have g1' : (some 1 : Option Nat) = some m1 := g1
              have g2' : (some 0 : Option Nat) = some m2 := g2
              injection g1' with g1'
              injection g2' with g2'
              rw [← g1', ← g2']
              decide
            · rcases List.mem_cons.mp e2 with e2 | e2
              · exact absurd (e1.trans e2.symm) hne
              · cases e2
          · cases e1)⟩

end Yarn
